import Mathlib

/-!
Shallow embedding of a small regular-expression engine (files `reparse.py`
and `regexp.py`).  Patterns and texts are byte strings, modelled as
`List Nat` whose elements are byte values `0x00..0xFF`.  Python functions
that can raise (assertion failures, missing-key lookups, unhandled cases)
are modelled in the `Option` monad, `none` marking the raise.
-/

set_option maxRecDepth 100000
set_option maxHeartbeats 12000000

namespace reparse

/-- Parse trees.  Mirrors the tagged tuples built by `reparse.py`
(`LTRL`, `DOT`, `CLSS`, `NCLS`, `STAR`, `CCAT`, `DSJN`, `GROUP`); a
character class carries its set of explicitly accepted bytes and its
list of inclusive ranges (the `RNGE` sub-nodes). -/
inductive Tree where
  | ltrl : Nat → Tree
  | dot : Tree
  | clss : Finset Nat → List (Nat × Nat) → Tree
  | ncls : Finset Nat → List (Nat × Nat) → Tree
  | star : Tree → Tree
  | ccat : Tree → Tree → Tree
  | dsjn : Tree → Tree → Tree
  | group : Nat → Tree → Tree
deriving DecidableEq

/-- Reserved characters of `reparse.py`: `.` `[` `]` `(` `)` `|` `*` `/`. -/
def RESERVED : List Nat := [46, 91, 93, 40, 41, 124, 42, 47]

/-- `parse_rprime`: recognize the `- literal` tail of a class range.
Returns `none` for a parse error (assertion failure). -/
def parse_rprime (inpt : List Nat) : Option (Option Nat × List Nat) :=
  match inpt with
  | [] => none
  | c :: rest =>
    if c ≠ 45 then some (none, inpt)
    else
      match rest with
      | 93 :: _ => some (none, inpt)
      | [] => none
      | e :: rest2 => some (some e, rest2)

/-- `parse_range`: one element of a character class, either a literal
byte or a range; the result is (accepted bytes, ranges). -/
def parse_range (inpt : List Nat) :
    Option (Option (Finset Nat × List (Nat × Nat)) × List Nat) :=
  match inpt with
  | [] => none
  | c :: rest =>
    if c = 93 then some (none, inpt)
    else
      let inptE := if c = 47 then rest else inpt
      match inptE with
      | [] => none
      | b :: after =>
        match parse_rprime after with
        | none => none
        | some (none, _) => some (some ({b}, []), after)
        | some (some e, remnant) => some (some (∅, [(b, e)]), remnant)

/-- `parse_elements`: a nonempty sequence of class elements, with the
accepted sets unioned and the range lists concatenated. -/
def parse_elements : Nat → List Nat →
    Option (Option (Finset Nat × List (Nat × Nat)) × List Nat)
  | 0, _ => none
  | fuel + 1, inpt =>
    match parse_range inpt with
    | none => none
    | some (none, _) => some (none, inpt)
    | some (some (a1, r1), remnant) =>
      match parse_elements fuel remnant with
      | none => none
      | some (none, _) => some (some (a1, r1), remnant)
      | some (some (a2, r2), new_remnant) =>
          some (some (a1 ∪ a2, r1 ++ r2), new_remnant)

mutual

/-- `parse_base`: literal, escaped literal, wildcard, parenthesized
group or character class.  The `Nat` argument after the input is the
group counter (`groups = count(1)` threaded through the parser). -/
def parse_base : Nat → List Nat → Nat → Option (Option Tree × List Nat × Nat)
  | 0, _, _ => none
  | fuel + 1, inpt, g =>
    match inpt with
    | [] => some (none, [], g)
    | c :: rest =>
      if c = 47 then
        match rest with
        | [] => none
        | d :: rest2 => some (some (.ltrl d), rest2, g)
      else if c = 46 then some (some .dot, rest, g)
      else if c = 40 then
        match parse_dsjn fuel rest (g + 1) with
        | none => none
        | some (d, remnant, g1) =>
          match remnant with
          | 41 :: rem2 =>
            match d with
            | none => none
            | some dt => some (some (.group g dt), rem2, g1)
          | _ => none
      else if c = 91 then
        match rest with
        | [] => none
        | d :: rest2 =>
          if d = 94 then
            match parse_elements fuel rest2 with
            | none => none
            | some (el, remnant) =>
              match remnant with
              | 93 :: rem2 =>
                match el with
                | none => none
                | some (a, r) => some (some (.ncls a r), rem2, g)
              | _ => none
          else
            match parse_elements fuel rest with
            | none => none
            | some (el, remnant) =>
              match remnant with
              | 93 :: rem2 =>
                  some (el.map (fun p => Tree.clss p.1 p.2), rem2, g)
              | _ => none
      else if c ∈ RESERVED then some (none, inpt, g)
      else some (some (.ltrl c), rest, g)
termination_by structural fuel _ _ => fuel

/-- `parse_star`: a base optionally followed by `*`. -/
def parse_star : Nat → List Nat → Nat → Option (Option Tree × List Nat × Nat)
  | 0, _, _ => none
  | fuel + 1, inpt, g =>
    match parse_base fuel inpt g with
    | none => none
    | some (none, _, g1) => some (none, inpt, g1)
    | some (some bt, remnant, g1) =>
      match remnant with
      | 42 :: rem2 => some (some (.star bt), rem2, g1)
      | _ => some (some bt, remnant, g1)
termination_by structural fuel _ _ => fuel

/-- `parse_ccat`: concatenation of stars. -/
def parse_ccat : Nat → List Nat → Nat → Option (Option Tree × List Nat × Nat)
  | 0, _, _ => none
  | fuel + 1, inpt, g =>
    match parse_star fuel inpt g with
    | none => none
    | some (none, _, g1) => some (none, inpt, g1)
    | some (some st, remnant, g1) =>
      match parse_ccat fuel remnant g1 with
      | none => none
      | some (none, _, g2) => some (some st, remnant, g2)
      | some (some ct, new_remnant, g2) =>
          some (some (.ccat st ct), new_remnant, g2)
termination_by structural fuel _ _ => fuel

/-- `parse_dprime`: the `'|' ccat dprime` continuation of a disjunction. -/
def parse_dprime : Nat → List Nat → Nat → Option (Option Tree × List Nat × Nat)
  | 0, _, _ => none
  | fuel + 1, inpt, g =>
    match inpt with
    | 124 :: rest =>
      match parse_ccat fuel rest g with
      | none => none
      | some (none, _, _) => none
      | some (some ct, remnant, g1) =>
        match parse_dprime fuel remnant g1 with
        | none => none
        | some (none, _, g2) => some (some ct, remnant, g2)
        | some (some sdt, new_remnant, g2) =>
            some (some (.dsjn ct sdt), new_remnant, g2)
    | _ => some (none, inpt, g)
termination_by structural fuel _ _ => fuel

/-- `parse_dsjn`: disjunction of concatenations. -/
def parse_dsjn : Nat → List Nat → Nat → Option (Option Tree × List Nat × Nat)
  | 0, _, _ => none
  | fuel + 1, inpt, g =>
    match parse_ccat fuel inpt g with
    | none => none
    | some (c, remnant, g1) =>
      match parse_dprime fuel remnant g1 with
      | none => none
      | some (sd, new_remnant, g2) =>
        match c, sd with
        | none, none => if inpt = [] then some (none, inpt, g2) else none
        | some ct, none => some (some ct, remnant, g2)
        | none, some _ => none
        | some ct, some sdt => some (some (.dsjn ct sdt), new_remnant, g2)
termination_by structural fuel _ _ => fuel

end

/-- `reparse.parse`: parse a whole pattern.  `some none` is the null
tree produced for the empty pattern, `none` a parse error. -/
def parse (inpt : List Nat) : Option (Option Tree) :=
  match parse_dsjn (8 * inpt.length + 64) inpt 1 with
  | none => none
  | some (t, remnant, _) => if remnant = [] then some t else none

end reparse

/-- Byte values of a Lean string, used to write patterns and texts. -/
def sBytes (s : String) : List Nat := s.data.map Char.toNat

namespace regexp

/-- A transition trigger of an NFA/DFA state: the empty string, a
literal byte, or the special `State.CLASS_MARK` key. -/
inductive Trigger where
  | eps : Trigger
  | chr : Nat → Trigger
  | classMark : Trigger
deriving DecidableEq

/-- The class predicates that `compile_to_nfa` attaches to states as
closures, represented by their data (spec section 9): the wildcard
predicate, a positive class and a negative class. -/
inductive ClassPred where
  | dotP : ClassPred
  | clsP : Finset Nat → List (Nat × Nat) → ClassPred
  | nclP : Finset Nat → List (Nat × Nat) → ClassPred
deriving DecidableEq

/-- The positive class membership test (`pred` in `compile_to_nfa`). -/
def inClass (a : Finset Nat) (rs : List (Nat × Nat)) (c : Nat) : Bool :=
  decide (c ∈ a) || rs.any (fun p => decide (p.1 ≤ c) && decide (c ≤ p.2))

/-- Evaluate a class predicate on a byte. -/
def predEval : ClassPred → Nat → Bool
  | .dotP, c => decide (c < 256) && decide (c ≠ 10)
  | .clsP a r, c => inClass a r c
  | .nclP a r, c => !(inClass a r c)

/-- One `State` of `regexp.py`: its transitions table (an association
list from trigger to destination list), its optional class predicate,
and its accept flag.  The state's name string is replaced by the `Nat`
key under which it is stored in a pool. -/
structure StateData where
  transitions : List (Trigger × List Nat)
  classPred : Option ClassPred
  accept : Bool
deriving DecidableEq

/-- A pool of states: each `(id, data)` pair is one `State` object. -/
abbrev Pool := List (Nat × StateData)

/-- Look up a state by id (first matching entry). -/
def poolGet (p : Pool) (i : Nat) : Option StateData :=
  (p.find? (fun e => e.1 == i)).map Prod.snd

/-- Mutate the state with id `i` (replace its data). -/
def poolSet (p : Pool) (i : Nat) (v : StateData) : Pool :=
  p.map (fun e => if e.1 = i then (i, v) else e)

/-- The ids stored in a pool. -/
def keysOf (p : Pool) : List Nat := p.map Prod.fst

/-- Python dict assignment `d[k] = v` on an association list. -/
def dictInsert (k : Trigger) (v : List Nat) (d : List (Trigger × List Nat)) :
    List (Trigger × List Nat) :=
  if d.any (fun e => e.1 == k) then d.map (fun e => if e.1 = k then (k, v) else e)
  else d ++ [(k, v)]

/-- Python dict lookup `d[k]` on an association list. -/
def dictGet (k : Trigger) (d : List (Trigger × List Nat)) : Option (List Nat) :=
  (d.find? (fun e => e.1 == k)).map Prod.snd

/-- Whether `State.CLASS_MARK` is a key of a transitions table. -/
def hasClassMark (d : List (Trigger × List Nat)) : Bool :=
  d.any (fun e => e.1 == Trigger.classMark)

/-- `State.move`: destinations reachable from state `s` on byte `c`,
as the list of targets (the Python method returns them as a set; the
callers below convert with `toFinset`).  The class-predicate branch is
tried first; when the mark is present but the predicate is false, the
literal branch is tried (`elif`). -/
def stateMove (p : Pool) (s : Nat) (c : Nat) : List Nat :=
  match poolGet p s with
  | none => []
  | some sd =>
    if hasClassMark sd.transitions &&
        (match sd.classPred with
         | some pr => predEval pr c
         | none => false) then
      (dictGet Trigger.classMark sd.transitions).getD []
    else
      (dictGet (Trigger.chr c) sd.transitions).getD []

/-- `regexp.compile_to_nfa`.  `c` is the name counter (`names =
count(1)`); fresh states get ids `2*c` (initial) and `2*c+1` (final).
Returns the initial id, the final id, the pool of states of the built
NFA and the next counter value; `none` models the raised exception on a
malformed tree (in particular on any `GROUP` node, which the function
does not handle) or an assertion failure. -/
def compile_to_nfa : reparse.Tree → Nat → Bool → Option (Nat × Nat × Pool × Nat)
  | t, c, af =>
    let ini := 2 * c
    let fin := 2 * c + 1
    match t with
    | .ltrl b =>
        some (ini, fin,
          [(ini, ⟨[(.chr b, [fin])], none, false⟩), (fin, ⟨[], none, af⟩)], c + 1)
    | .dot =>
        some (ini, fin,
          [(ini, ⟨[(.classMark, [fin])], some .dotP, false⟩),
           (fin, ⟨[], none, af⟩)], c + 1)
    | .clss a r =>
        some (ini, fin,
          [(ini, ⟨[(.classMark, [fin])], some (.clsP a r), false⟩),
           (fin, ⟨[], none, af⟩)], c + 1)
    | .ncls a r =>
        some (ini, fin,
          [(ini, ⟨[(.classMark, [fin])], some (.nclP a r), false⟩),
           (fin, ⟨[], none, af⟩)], c + 1)
    | .star t1 =>
      match compile_to_nfa t1 (c + 1) false with
      | none => none
      | some (si, sf, sp, c1) =>
        match poolGet sp sf with
        | none => none
        | some sfd =>
          if sfd.transitions = [] then
            some (ini, fin,
              (ini, ⟨[(.eps, [si, fin])], none, false⟩) ::
              (fin, ⟨[], none, af⟩) ::
              poolSet sp sf { sfd with transitions := [(.eps, [si, fin])] }, c1)
          else none
    | .ccat t1 t2 =>
      match compile_to_nfa t1 (c + 1) false with
      | none => none
      | some (i1, f1, p1, c1) =>
        match compile_to_nfa t2 c1 af with
        | none => none
        | some (i2, f2, p2, c2) =>
          match poolGet p1 f1 with
          | none => none
          | some f1d =>
            if f1d.transitions = [] then
              match poolGet p2 i2 with
              | none => none
              | some i2d =>
                some (i1, f2,
                  poolSet p1 f1
                    ⟨i2d.transitions,
                     if hasClassMark i2d.transitions then i2d.classPred
                     else f1d.classPred,
                     f1d.accept⟩ ++ p2, c2)
            else none
    | .dsjn t1 t2 =>
      match compile_to_nfa t1 (c + 1) false with
      | none => none
      | some (i1, f1, p1, c1) =>
        match compile_to_nfa t2 c1 false with
        | none => none
        | some (i2, f2, p2, c2) =>
          match poolGet p1 f1, poolGet p2 f2 with
          | some f1d, some f2d =>
            if f1d.transitions = [] ∧ f2d.transitions = [] then
              some (ini, fin,
                (ini, ⟨[(.eps, [i1, i2])], none, false⟩) ::
                (fin, ⟨[], none, af⟩) ::
                (poolSet p1 f1 { f1d with transitions := [(.eps, [fin])] } ++
                 poolSet p2 f2 { f2d with transitions := [(.eps, [fin])] }), c2)
            else none
          | _, _ => none
    | .group _ _ => none

/-- The states reachable from `s` by a single epsilon transition. -/
def epsTargets (p : Pool) (s : Nat) : Finset Nat :=
  match poolGet p s with
  | none => ∅
  | some sd => ((dictGet Trigger.eps sd.transitions).getD []).toFinset

/-- All epsilon-transition destinations appearing anywhere in a pool;
a finite universe bounding what `epsilon_closure` can add. -/
def allEpsTargets (p : Pool) : Finset Nat :=
  p.foldr
    (fun e acc => ((dictGet Trigger.eps e.2.transitions).getD []).toFinset ∪ acc) ∅

/-- The `while True` loop of `regexp.epsilon_closure`, with the
`old_states` / `new_states` / `visited` variables made explicit.  The
fuel argument bounds the number of iterations; `epsilon_closure` below
supplies enough fuel for the fixed point to be reached, matching the
unbounded Python loop. -/
def closureLoop (p : Pool) : Nat → Finset Nat → Finset Nat → Finset Nat → Finset Nat
  | 0, _, new, _ => new
  | fuel + 1, old, new, visited =>
    let new2 := new ∪ (old \ visited).biUnion (epsTargets p)
    if new2 ⊆ old then new2
    else closureLoop p fuel (old ∪ new2) new2 (visited ∪ old)

/-- `regexp.epsilon_closure`: all states reachable from the given set
by any number of epsilon transitions. -/
def epsilon_closure (p : Pool) (states : Finset Nat) : Finset Nat :=
  closureLoop p ((states ∪ allEpsTargets p).card + 1) states states ∅

/-- `regexp.move`: states reachable from a set by one transition on
byte `c`, with epsilon closures taken before and after. -/
def move (p : Pool) (states : Finset Nat) (c : Nat) : Finset Nat :=
  epsilon_closure p
    ((epsilon_closure p states).biUnion (fun s => (stateMove p s c).toFinset))

/-- `regexp.process`: run the NFA on an input, returning the final set
of states. -/
def process (p : Pool) (init : Nat) (inpt : List Nat) : Finset Nat :=
  inpt.foldl
    (fun old c =>
      epsilon_closure p (old.biUnion (fun s => (stateMove p s c).toFinset)))
    (epsilon_closure p {init})

/-- `regexp.match`: whether the pattern matches the entire text.
`none` models an exception escaping from the pipeline (a parse error,
or a crash in `compile_to_nfa`). -/
def matchRun (pattern text : List Nat) : Option Bool :=
  match reparse.parse pattern with
  | none => none
  | some none => none
  | some (some t) =>
    match compile_to_nfa t 1 true with
    | none => none
    | some (initial, final, pool, _) =>
        some (decide (final ∈ process pool initial text))

/-- The byte string `[\x00-\xff]*` prepended / appended by `search`. -/
def anchorBytes : List Nat := [91, 0, 45, 255, 93, 42]

/-- The pattern rewriting done by `regexp.search`: strip a leading `^`
or prepend the any-byte star, strip a trailing `$` or append it, and
wrap the remaining pattern in parentheses. -/
def rewriteSearch (pattern : List Nat) : List Nat :=
  let s1 := if pattern ≠ [] ∧ pattern.head? = some 94 then (pattern.tail, ([] : List Nat))
            else (pattern, anchorBytes)
  let s2 := if s1.1 ≠ [] ∧ s1.1.getLast? = some 36 then (s1.1.dropLast, ([] : List Nat))
            else (s1.1, anchorBytes)
  s1.2 ++ [40] ++ s2.1 ++ [41] ++ s2.2

/-- `regexp.search`: match the rewritten pattern against the text. -/
def search (pattern text : List Nat) : Option Bool :=
  matchRun (rewriteSearch pattern) text

/-! ### Subset construction (`regexp.compile_to_dfa`) -/

/-- The mutable state of the subset construction: the discovered NFA
state subsets (`dfa_states`, in insertion order), the map from subset
to DFA state id (`dfa_state_lookup`), the pool of DFA `State` objects,
the marked subsets and the name counter. -/
structure DfaBuild where
  dfaStates : List (Finset Nat)
  lookupL : List (Finset Nat × Nat)
  dpool : Pool
  marked : List (Finset Nat)
  ctr : Nat
deriving DecidableEq

/-- Look up the DFA state id of a subset. -/
def lookupGet (l : List (Finset Nat × Nat)) (ss : Finset Nat) : Option Nat :=
  (l.find? (fun e => e.1 == ss)).map Prod.snd

/-- The body of the `for byte in xrange(256)` loop of
`compile_to_dfa`: compute `move(stateset, byte)`, intern the resulting
subset as a DFA state if it is new, and install the transition. -/
def processByte (np : Pool) (fin : Nat) (ss : Finset Nat) (st : DfaBuild)
    (b : Nat) : Option DfaBuild :=
  let newset := move np ss b
  let st1 :=
    if newset ∈ st.dfaStates then st
    else
      { st with
        dfaStates := st.dfaStates ++ [newset]
        lookupL := st.lookupL ++ [(newset, st.ctr)]
        dpool := st.dpool ++ [(st.ctr, ⟨[], none, decide (fin ∈ newset)⟩)]
        ctr := st.ctr + 1 }
  match lookupGet st1.lookupL ss, lookupGet st1.lookupL newset with
  | some sid, some tid =>
    match poolGet st1.dpool sid with
    | none => none
    | some sd =>
        some { st1 with
          dpool := poolSet st1.dpool sid
            { sd with transitions := dictInsert (Trigger.chr b) [tid] sd.transitions } }
  | _, _ => none

/-- `foldlM` over `Option`, written out so proofs can recurse on it. -/
def optFold {α σ : Type} (f : σ → α → Option σ) : σ → List α → Option σ
  | s, [] => some s
  | s, a :: l =>
    match f s a with
    | none => none
    | some s2 => optFold f s2 l

/-- Process one subset from the queue: skip it if already marked,
otherwise mark it and install its 256 byte transitions. -/
def processStateset (np : Pool) (fin : Nat) (st : DfaBuild) (ss : Finset Nat) :
    Option DfaBuild :=
  if ss ∈ st.marked then some st
  else optFold (processByte np fin ss)
         { st with marked := st.marked ++ [ss] } (List.range 256)

/-- The `while dfa_states - marked` loop of `compile_to_dfa`, fuelled;
`none` when the fuel runs out before the loop finishes. -/
def dfaLoop (np : Pool) (fin : Nat) : Nat → DfaBuild → Option DfaBuild
  | 0, st => if st.dfaStates.filter (fun ss => decide (ss ∉ st.marked)) = []
             then some st else none
  | fuel + 1, st =>
    let queue := st.dfaStates.filter (fun ss => decide (ss ∉ st.marked))
    if queue = [] then some st
    else
      match optFold (processStateset np fin) st queue with
      | none => none
      | some st2 => dfaLoop np fin fuel st2

/-- `regexp.compile_to_dfa`: compile an NFA (pool, initial id, final
id) to a DFA.  Returns the initial DFA state id, the list of all DFA
state ids and the pool of DFA states. -/
def compile_to_dfa (np : Pool) (ini fin : Nat) (fuel : Nat) :
    Option (Nat × List Nat × Pool) :=
  let d0 := epsilon_closure np {ini}
  let st0 : DfaBuild :=
    ⟨[d0], [(d0, 1)], [(1, ⟨[], none, decide (fin ∈ d0)⟩)], [], 2⟩
  match dfaLoop np fin fuel st0 with
  | none => none
  | some st => some (1, keysOf st.dpool, st.dpool)

/-- `regexp.dfa_process`: run the DFA scanner.  A missing transition
key or an empty destination list is a raised exception (`none`). -/
def dfa_process (dpool : Pool) : Nat → List Nat → Option Bool
  | cur, [] => (poolGet dpool cur).map StateData.accept
  | cur, c :: rest =>
    match poolGet dpool cur with
    | none => none
    | some sd =>
      match dictGet (Trigger.chr c) sd.transitions with
      | none => none
      | some l =>
        match l.head? with
        | none => none
        | some nxt => dfa_process dpool nxt rest

/-! ### DFA minimization (`regexp.minimize_dfa`) -/

/-- `group_of`: index of the first partition block containing `s`;
`none` models the raised exception when no block contains it. -/
def group_of (s : Nat) : List (List Nat) → Option Nat
  | [] => none
  | g :: gs => if s ∈ g then some 0 else (group_of s gs).map (· + 1)

/-- `subgroup_dict.setdefault(target, set()).add(state)`. -/
def sgInsert (key : Nat) (s : Nat) (d : List (Nat × List Nat)) :
    List (Nat × List Nat) :=
  if d.any (fun e => e.1 == key) then
    d.map (fun e => if e.1 = key then (e.1, e.2 ++ [s]) else e)
  else d ++ [(key, [s])]

/-- Build the `subgroup_dict` for one block and one byte: group the
block's states by the partition index of their successor on that
byte. -/
def buildSubgroups (dpool : Pool) (partition : List (List Nat)) (b : Nat) :
    List Nat → List (Nat × List Nat) → Option (List (Nat × List Nat))
  | [], acc => some acc
  | s :: rest, acc =>
    match (stateMove dpool s b).head? with
    | none => none
    | some t =>
      match group_of t partition with
      | none => none
      | some gi => buildSubgroups dpool partition b rest (sgInsert gi s acc)

/-- The `while byte < 256` loop on one block: scan bytes in order and
stop at the first byte splitting the block (`some subgroups`), or
report no split (`none`) after all 256 bytes. -/
def byteScan (dpool : Pool) (partition : List (List Nat)) (group : List Nat) :
    List Nat → Option (Option (List (List Nat)))
  | [] => some none
  | b :: bs =>
    match buildSubgroups dpool partition b group [] with
    | none => none
    | some sgd =>
      if sgd.length > 1 then some (some (sgd.map Prod.snd))
      else byteScan dpool partition group bs

/-- One `for idx, group in enumerate(partition)` pass: returns the
kept blocks (those not split) and the list of appended subgroups. -/
def refinePassAux (dpool : Pool) (partition : List (List Nat)) :
    List (List Nat) → Option (List (List Nat) × List (List Nat))
  | [] => some ([], [])
  | g :: gs =>
    match byteScan dpool partition g (List.range 256) with
    | none => none
    | some r =>
      match refinePassAux dpool partition gs with
      | none => none
      | some (kept, appended) =>
        match r with
        | none => some (g :: kept, appended)
        | some sgs => some (kept, sgs ++ appended)

/-- One refinement pass followed by the `filter` of `None` entries:
the new partition is the kept blocks followed by the appended
subgroups. -/
def refinePass (dpool : Pool) (partition : List (List Nat)) :
    Option (List (List Nat)) :=
  match refinePassAux dpool partition partition with
  | none => none
  | some (kept, appended) => some (kept ++ appended)

/-- The `while True` refinement loop: repeat passes until a pass
leaves the partition unchanged. -/
def refineLoop (dpool : Pool) : Nat → List (List Nat) → Option (List (List Nat))
  | 0, _ => none
  | fuel + 1, p =>
    match refinePass dpool p with
    | none => none
    | some p2 => if p2 = p then some p else refineLoop dpool fuel p2

/-- `representatives[idx] = group.pop()`: take one state from each
block (an exception — `none` — on an empty block, the Python
`KeyError`). -/
def repStep (acc : List Nat) (g : List Nat) : Option (List Nat) :=
  match g.head? with
  | none => none
  | some r => some (acc ++ [r])

/-- The accept flag of a state id (used to build the initial
partition). -/
def stAccept (dpool : Pool) (s : Nat) : Bool :=
  ((poolGet dpool s).map StateData.accept).getD false

/-- One transition of a minimized state: redirect the representative's
transition `e` to the minimized id (`block index + 1`) of the block
containing its target. -/
def miniTransStep (partF : List (List Nat)) (acc : List (Trigger × List Nat))
    (e : Trigger × List Nat) : Option (List (Trigger × List Nat)) :=
  match e.2.head? with
  | none => none
  | some t =>
    match group_of t partF with
    | none => none
    | some gi => some (acc ++ [(e.1, [gi + 1])])

/-- Build the minimized states: for each block index, a fresh state
carrying the representative's accept flag, with each of the
representative's transitions redirected to the minimized state of the
block containing its target.  Minimized state ids are `idx + 1`. -/
def buildMini (dpool : Pool) (partF : List (List Nat)) :
    List Nat → Nat → Option Pool
  | [], _ => some []
  | rep :: rest, idx =>
    match poolGet dpool rep with
    | none => none
    | some sd =>
      match optFold (miniTransStep partF)
          ([] : List (Trigger × List Nat)) sd.transitions with
      | none => none
      | some mtrans =>
        match buildMini dpool partF rest (idx + 1) with
        | none => none
        | some restPool => some ((idx + 1, ⟨mtrans, none, sd.accept⟩) :: restPool)

/-- `regexp.minimize_dfa`: partition refinement.  Returns the start id
and pool of the minimized DFA; `none` models a raised exception — in
particular the `KeyError` from `group.pop()` on an empty partition
block, which is never dropped. -/
def minimize_dfa (ini : Nat) (states : List Nat) (dpool : Pool) (fuel : Nat) :
    Option (Nat × Pool) :=
  let part0 : List (List Nat) :=
    [states.filter (fun s => stAccept dpool s),
     states.filter (fun s => !stAccept dpool s)]
  match refineLoop dpool fuel part0 with
  | none => none
  | some partF =>
    match optFold repStep ([] : List Nat) partF with
    | none => none
    | some reps =>
      match group_of ini partF with
      | none => none
      | some iidx =>
        match buildMini dpool partF reps 0 with
        | none => none
        | some mpool => some (iidx + 1, mpool)

/-! ### Association-list lemmas about pools -/

lemma keysOf_nil : keysOf [] = [] := rfl

lemma keysOf_cons (k : Nat) (v : StateData) (p : Pool) :
    keysOf ((k, v) :: p) = k :: keysOf p := rfl

lemma keysOf_append (p q : Pool) : keysOf (p ++ q) = keysOf p ++ keysOf q :=
  List.map_append _ _ _

lemma keysOf_poolSet (p : Pool) (i : Nat) (v : StateData) :
    keysOf (poolSet p i v) = keysOf p := by
  induction p with
  | nil => rfl
  | cons a p ih =>
    by_cases h : a.1 = i <;> simp [poolSet, keysOf, h] <;>
      simpa [poolSet, keysOf] using ih

lemma poolGet_cons (k : Nat) (v : StateData) (p : Pool) (i : Nat) :
    poolGet ((k, v) :: p) i = if k = i then some v else poolGet p i := by
  by_cases h : k = i
  · simp [poolGet, List.find?, h]
  · have hb : (k == i) = false := beq_eq_false_iff_ne.mpr h
    simp [poolGet, List.find?, hb, h]

lemma poolGet_eq_none (p : Pool) (i : Nat) (h : i ∉ keysOf p) :
    poolGet p i = none := by
  induction p with
  | nil => rfl
  | cons a p ih =>
    obtain ⟨k, v⟩ := a
    rw [poolGet_cons]
    rw [keysOf_cons, List.mem_cons] at h
    push_neg at h
    rw [if_neg (fun hk => h.1 hk.symm)]
    exact ih h.2

lemma poolGet_isSome (p : Pool) (i : Nat) (h : i ∈ keysOf p) :
    ∃ sd, poolGet p i = some sd := by
  induction p with
  | nil => cases h
  | cons a p ih =>
    obtain ⟨k, v⟩ := a
    rw [poolGet_cons]
    by_cases hk : k = i
    · exact ⟨v, by rw [if_pos hk]⟩
    · rw [if_neg hk]
      rw [keysOf_cons, List.mem_cons] at h
      exact ih (h.resolve_left (fun hh => hk hh.symm))

lemma poolGet_mem (p : Pool) (i : Nat) (sd : StateData)
    (h : poolGet p i = some sd) : (i, sd) ∈ p := by
  unfold poolGet at h
  rcases Option.map_eq_some'.mp h with ⟨e, hf, rfl⟩
  have h1 : e.1 = i := by simpa using List.find?_some hf
  have h2 := List.mem_of_find?_eq_some hf
  obtain ⟨e1, e2⟩ := e
  rwa [show e1 = i from h1] at h2

lemma poolGet_mem_keys (p : Pool) (i : Nat) (sd : StateData)
    (h : poolGet p i = some sd) : i ∈ keysOf p :=
  List.mem_map.mpr ⟨(i, sd), poolGet_mem p i sd h, rfl⟩

lemma poolGet_append_left (p q : Pool) (i : Nat) (sd : StateData)
    (h : poolGet p i = some sd) : poolGet (p ++ q) i = some sd := by
  induction p with
  | nil => simp [poolGet] at h
  | cons a p ih =>
    obtain ⟨k, v⟩ := a
    rw [poolGet_cons] at h
    rw [List.cons_append, poolGet_cons]
    by_cases hk : k = i
    · rwa [if_pos hk] at h ⊢
    · rw [if_neg hk] at h ⊢; exact ih h

lemma poolGet_append_right (p q : Pool) (i : Nat) (h : i ∉ keysOf p) :
    poolGet (p ++ q) i = poolGet q i := by
  induction p with
  | nil => rfl
  | cons a p ih =>
    obtain ⟨k, v⟩ := a
    rw [keysOf_cons, List.mem_cons] at h
    push_neg at h
    rw [List.cons_append, poolGet_cons, if_neg (fun hk => h.1 hk.symm)]
    exact ih h.2

lemma poolGet_poolSet_self (p : Pool) (i : Nat) (v sd : StateData)
    (h : poolGet p i = some sd) : poolGet (poolSet p i v) i = some v := by
  induction p with
  | nil => simp [poolGet] at h
  | cons a p ih =>
    obtain ⟨k, v0⟩ := a
    rw [poolGet_cons] at h
    by_cases hk : k = i
    · subst hk
      simp [poolSet, poolGet_cons]
    · rw [if_neg hk] at h
      simpa [poolSet, poolGet_cons, hk] using ih h

lemma poolGet_poolSet_ne (p : Pool) (i j : Nat) (v : StateData) (h : j ≠ i) :
    poolGet (poolSet p i v) j = poolGet p j := by
  induction p with
  | nil => rfl
  | cons a p ih
  =>
    obtain ⟨k, v0⟩ := a
    by_cases hk : k = i
    · subst hk
      simp only [poolSet, List.map_cons, if_pos rfl]
      rw [poolGet_cons, poolGet_cons, if_neg (fun hh => h hh.symm),
        if_neg (fun hh => (h hh.symm).elim)]
      simpa [poolSet] using ih
    · simp only [poolSet, List.map_cons, if_neg hk]
      rw [poolGet_cons, poolGet_cons]
      by_cases hkj : k = j
      · rw [if_pos hkj, if_pos hkj]
      · rw [if_neg hkj, if_neg hkj]
        simpa [poolSet] using ih

lemma poolGet_eq_of_mem_nodup (p : Pool) (k : Nat) (v : StateData)
    (hnd : (keysOf p).Nodup) (h : (k, v) ∈ p) : poolGet p k = some v := by
  induction p with
  | nil => cases h
  | cons a p ih =>
    obtain ⟨k0, v0⟩ := a
    rw [keysOf_cons, List.nodup_cons] at hnd
    rw [poolGet_cons]
    rcases List.mem_cons.mp h with he | he
    · obtain ⟨rfl, rfl⟩ := Prod.mk.injEq .. ▸ he
      injection he with h1 h2
      rw [if_pos rfl]
    · have hk : k0 ≠ k := by
        rintro rfl
        exact hnd.1 (List.mem_map.mpr ⟨(k0, v), he, rfl⟩)
      rw [if_neg hk]
      exact ih hnd.2 he

lemma poolSet_forall (P : Nat × StateData → Prop) (p : Pool) (i : Nat)
    (v : StateData) (h1 : ∀ e ∈ p, e.1 ≠ i → P e) (h2 : P (i, v)) :
    ∀ e ∈ poolSet p i v, P e := by
  intro e he
  rcases List.mem_map.mp he with ⟨e0, he0, rfl⟩
  by_cases h : e0.1 = i
  · rw [if_pos h]; exact h2
  · rw [if_neg h]; exact h1 e0 he0 h

/-! ### Properties of `epsilon_closure` -/

lemma mem_allEpsTargets_of_mem (p : Pool) (e : Nat × StateData) (he : e ∈ p) :
    ((dictGet Trigger.eps e.2.transitions).getD []).toFinset ⊆ allEpsTargets p := by
  induction p with
  | nil => cases he
  | cons a p ih =>
    simp only [allEpsTargets, List.foldr_cons] at *
    rcases List.mem_cons.mp he with h | h
    · subst h; exact Finset.subset_union_left
    · exact (ih h).trans Finset.subset_union_right

lemma epsTargets_subset_all (p : Pool) (s : Nat) :
    epsTargets p s ⊆ allEpsTargets p := by
  unfold epsTargets
  cases h : poolGet p s with
  | none => simp
  | some sd =>
    unfold poolGet at h
    rcases Option.map_eq_some'.mp h with ⟨e, hfind, rfl⟩
    exact mem_allEpsTargets_of_mem p e (List.mem_of_find?_eq_some hfind)

lemma closureLoop_supset (p : Pool) :
    ∀ (fuel : Nat) (old new visited : Finset Nat),
      new ⊆ closureLoop p fuel old new visited := by
  intro fuel
  induction fuel with
  | zero => intro old new visited; simp [closureLoop]
  | succ n ih =>
    intro old new visited
    simp only [closureLoop]
    by_cases h : (new ∪ (old \ visited).biUnion (epsTargets p)) ⊆ old
    · rw [if_pos h]; exact Finset.subset_union_left
    · rw [if_neg h]; exact Finset.subset_union_left.trans (ih _ _ _)

lemma closureLoop_min (p : Pool) (T : Finset Nat)
    (hT : ∀ s ∈ T, epsTargets p s ⊆ T) :
    ∀ (fuel : Nat) (old new visited : Finset Nat), old ⊆ T → new ⊆ T →
      closureLoop p fuel old new visited ⊆ T := by
  intro fuel
  induction fuel with
  | zero => intro old new visited _ hnew; simpa [closureLoop] using hnew
  | succ n ih =>
    intro old new visited hold hnew
    simp only [closureLoop]
    have hnew2 : (new ∪ (old \ visited).biUnion (epsTargets p)) ⊆ T := by
      apply Finset.union_subset hnew
      intro x hx
      rcases Finset.mem_biUnion.mp hx with ⟨s, hs, hxs⟩
      exact hT s (hold (Finset.mem_sdiff.mp hs).1) hxs
    by_cases h : (new ∪ (old \ visited).biUnion (epsTargets p)) ⊆ old
    · rw [if_pos h]; exact hnew2
    · rw [if_neg h]; exact ih _ _ _ (Finset.union_subset hold hnew2) hnew2

lemma closureLoop_closed (p : Pool) (U : Finset Nat)
    (hUall : allEpsTargets p ⊆ U) :
    ∀ (fuel : Nat) (old new visited : Finset Nat),
      old = new → new ⊆ U → (∀ s ∈ visited, epsTargets p s ⊆ new) →
      U.card < fuel + old.card →
      ∀ s ∈ closureLoop p fuel old new visited,
        epsTargets p s ⊆ closureLoop p fuel old new visited := by
  intro fuel
  induction fuel with
  | zero =>
    intro old new visited hon hnU _ hcard
    exfalso
    have : old.card ≤ U.card := Finset.card_le_card (hon ▸ hnU)
    omega
  | succ n ih =>
    intro old new visited hon hnU hvis hcard
    subst hon
    simp only [closureLoop]
    set new2 := old ∪ (old \ visited).biUnion (epsTargets p) with hnew2def
    have hold2 : old ⊆ new2 := Finset.subset_union_left
    have hbi : (old \ visited).biUnion (epsTargets p) ⊆ new2 :=
      Finset.subset_union_right
    have hstep : ∀ s ∈ old, epsTargets p s ⊆ new2 := by
      intro s hs
      by_cases hv : s ∈ visited
      · exact (hvis s hv).trans hold2
      · intro x hx
        exact hbi (Finset.mem_biUnion.mpr ⟨s, Finset.mem_sdiff.mpr ⟨hs, hv⟩, hx⟩)
    by_cases h : new2 ⊆ old
    · rw [if_pos h]
      have heq : new2 = old := Finset.Subset.antisymm h hold2
      rw [heq]
      intro s hs
      exact (hstep s hs).trans (heq ▸ hold2)
    · rw [if_neg h]
      have hn2U : new2 ⊆ U := by
        apply Finset.union_subset hnU
        intro x hx
        rcases Finset.mem_biUnion.mp hx with ⟨s, _, hxs⟩
        exact hUall (epsTargets_subset_all p s hxs)
      have hcard2 : old.card < new2.card := by
        apply Finset.card_lt_card
        exact HasSubset.Subset.ssubset_of_not_subset hold2 h
      have hunion : old ∪ new2 = new2 := Finset.union_eq_right.mpr hold2
      refine ih (old ∪ new2) new2 (visited ∪ old) hunion hn2U ?_ ?_
      · intro s hs
        rcases Finset.mem_union.mp hs with hv | ho
        · exact (hvis s hv).trans hold2
        · exact hstep s ho
      · rw [hunion]; omega

lemma epsilon_closure_supset (p : Pool) (S : Finset Nat) :
    S ⊆ epsilon_closure p S :=
  closureLoop_supset p _ S S ∅

lemma epsilon_closure_closed (p : Pool) (S : Finset Nat) :
    ∀ s ∈ epsilon_closure p S, epsTargets p s ⊆ epsilon_closure p S := by
  apply closureLoop_closed p (S ∪ allEpsTargets p) Finset.subset_union_right
    _ S S ∅ rfl Finset.subset_union_left (by simp)
  omega

lemma epsilon_closure_min (p : Pool) (S T : Finset Nat)
    (hT : ∀ s ∈ T, epsTargets p s ⊆ T) (hS : S ⊆ T) :
    epsilon_closure p S ⊆ T :=
  closureLoop_min p T hT _ S S ∅ hS hS

/-! ### The single-accept invariant of `compile_to_nfa` -/

/-- Invariant of the Thompson builder: the counter advances, the pool
ids are fresh, distinct and bracketed by the counter values, the
initial and final ids are distinct pool states, the final state's data
is exactly an empty transitions table with the requested accept flag,
and every other state is non-accepting. -/
def nfaInvProp (c : Nat) (af : Bool) (i f : Nat) (pool : Pool) (c' : Nat) : Prop :=
  c < c' ∧
  (∀ k ∈ keysOf pool, 2 * c ≤ k ∧ k < 2 * c') ∧
  (keysOf pool).Nodup ∧
  i ∈ keysOf pool ∧ f ∈ keysOf pool ∧ i ≠ f ∧
  poolGet pool f = some ⟨[], none, af⟩ ∧
  (∀ e ∈ pool, e.1 ≠ f → e.2.accept = false)

lemma nfaInv_leaf (c : Nat) (af : Bool) (d : StateData) (hd : d.accept = false) :
    nfaInvProp c af (2 * c) (2 * c + 1)
      [(2 * c, d), (2 * c + 1, ⟨[], none, af⟩)] (c + 1) := by
  refine ⟨by omega, ?_, ?_, ?_, ?_, ?_, ?_, ?_⟩
  · intro k hk
    simp only [keysOf, List.map_cons, List.map_nil, List.mem_cons,
      List.not_mem_nil, or_false] at hk
    rcases hk with rfl | rfl <;> omega
  · simp only [keysOf, List.map_cons, List.map_nil, List.nodup_cons,
      List.mem_singleton, List.not_mem_nil, not_false_iff, List.nodup_nil,
      and_true, List.mem_cons, or_false]
    omega
  · simp [keysOf]
  · simp [keysOf]
  · omega
  · rw [poolGet_cons, if_neg (by omega), poolGet_cons, if_pos rfl]
  · intro e he hne
    rcases List.mem_cons.mp he with rfl | he2
    · exact hd
    · rcases List.mem_cons.mp he2 with rfl | he3
      · exact absurd rfl hne
      · cases he3

/-- In a sub-NFA built with `accept_final = false`, every state is
non-accepting. -/
lemma nfaInv_all_false {c : Nat} {i f : Nat} {pool : Pool} {c' : Nat}
    (h : nfaInvProp c false i f pool c') :
    ∀ e ∈ pool, e.2.accept = false := by
  obtain ⟨_, _, hnd, _, _, _, hgetf, hacc⟩ := h
  intro e he
  by_cases hef : e.1 = f
  · obtain ⟨e1, e2⟩ := e
    simp only at hef
    subst hef
    have := poolGet_eq_of_mem_nodup pool e1 e2 hnd he
    rw [hgetf] at this
    injection this with h2
    rw [← h2]
  · exact hacc e he hef

lemma compile_to_nfa_inv :
    ∀ (t : reparse.Tree) (c : Nat) (af : Bool) (i f : Nat) (pool : Pool) (c' : Nat),
      compile_to_nfa t c af = some (i, f, pool, c') →
      nfaInvProp c af i f pool c' := by
  intro t
  induction t with
  | ltrl b =>
    intro c af i f pool c' h
    simp only [compile_to_nfa, Option.some.injEq, Prod.mk.injEq] at h
    obtain ⟨rfl, rfl, rfl, rfl⟩ := h
    exact nfaInv_leaf c af _ rfl
  | dot =>
    intro c af i f pool c' h
    simp only [compile_to_nfa, Option.some.injEq, Prod.mk.injEq] at h
    obtain ⟨rfl, rfl, rfl, rfl⟩ := h
    exact nfaInv_leaf c af _ rfl
  | clss a r =>
    intro c af i f pool c' h
    simp only [compile_to_nfa, Option.some.injEq, Prod.mk.injEq] at h
    obtain ⟨rfl, rfl, rfl, rfl⟩ := h
    exact nfaInv_leaf c af _ rfl
  | ncls a r =>
    intro c af i f pool c' h
    simp only [compile_to_nfa, Option.some.injEq, Prod.mk.injEq] at h
    obtain ⟨rfl, rfl, rfl, rfl⟩ := h
    exact nfaInv_leaf c af _ rfl
  | star t1 ih =>
    intro c af i f pool c' h
    rw [compile_to_nfa] at h
    cases hsub : compile_to_nfa t1 (c + 1) false with
    | none => rw [hsub] at h; exact absurd h (by simp)
    | some q =>
      obtain ⟨si, sf, sp, c1⟩ := q
      rw [hsub] at h
      simp only [] at h
      obtain ⟨hc1, hbound, hnd, hsi, hsf, hsisf, hgetf, hacc⟩ :=
        ih (c + 1) false si sf sp c1 hsub
      rw [hgetf] at h
      simp only [] at h
      rw [if_pos trivial] at h
      simp only [Option.some.injEq, Prod.mk.injEq] at h
      obtain ⟨rfl, rfl, rfl, rfl⟩ := h
      have hall := nfaInv_all_false ⟨hc1, hbound, hnd, hsi, hsf, hsisf, hgetf, hacc⟩
      have hkeys : keysOf ((2 * c, (⟨[(.eps, [si, 2 * c + 1])], none, false⟩ : StateData)) ::
          (2 * c + 1, (⟨[], none, af⟩ : StateData)) ::
          poolSet sp sf ⟨[(.eps, [si, 2 * c + 1])], none, false⟩) =
          2 * c :: (2 * c + 1) :: keysOf sp := by
        rw [keysOf_cons, keysOf_cons, keysOf_poolSet]
      refine ⟨by omega, ?_, ?_, ?_, ?_, ?_, ?_, ?_⟩
      · intro k hk
        rw [hkeys] at hk
        rcases List.mem_cons.mp hk with rfl | hk2
        · omega
        · rcases List.mem_cons.mp hk2 with rfl | hk3
          · omega
          · have := hbound k hk3; omega
      · rw [hkeys]
        refine List.nodup_cons.mpr ⟨?_, List.nodup_cons.mpr ⟨?_, hnd⟩⟩
        · intro hmem
          rcases List.mem_cons.mp hmem with he | hk3
          · omega
          · have := hbound _ hk3; omega
        · intro hk3
          have := hbound _ hk3; omega
      · rw [hkeys]; exact List.mem_cons_self _ _
      · rw [hkeys]
        exact List.mem_cons.mpr (Or.inr (List.mem_cons_self _ _))
      · omega
      · rw [poolGet_cons, if_neg (by omega), poolGet_cons, if_pos rfl]
      · intro e he hne
        rcases List.mem_cons.mp he with rfl | he2
        · rfl
        · rcases List.mem_cons.mp he2 with rfl | he3
          · exact absurd rfl hne
          · rcases List.mem_map.mp he3 with ⟨e0, he0, rfl⟩
            by_cases hesf : e0.1 = sf
            · rw [if_pos hesf]
            · rw [if_neg hesf]; exact hall e0 he0
  | ccat t1 t2 ih1 ih2 =>
    intro c af i f pool c' h
    rw [compile_to_nfa] at h
    cases hsub1 : compile_to_nfa t1 (c + 1) false with
    | none => rw [hsub1] at h; exact absurd h (by simp)
    | some q1 =>
      obtain ⟨i1, f1, p1, c1⟩ := q1
      rw [hsub1] at h
      simp only [] at h
      cases hsub2 : compile_to_nfa t2 c1 af with
      | none => rw [hsub2] at h; exact absurd h (by simp)
      | some q2 =>
        obtain ⟨i2, f2, p2, c2⟩ := q2
        rw [hsub2] at h
        simp only [] at h
        obtain ⟨hc1, hbound1, hnd1, hi1, hf1, hif1, hgetf1, hacc1⟩ :=
          ih1 (c + 1) false i1 f1 p1 c1 hsub1
        obtain ⟨hc2, hbound2, hnd2, hi2, hf2, hif2, hgetf2, hacc2⟩ :=
          ih2 c1 af i2 f2 p2 c2 hsub2
        have hall1 := nfaInv_all_false
          ⟨hc1, hbound1, hnd1, hi1, hf1, hif1, hgetf1, hacc1⟩
        rw [hgetf1] at h
        simp only [] at h
        rw [if_pos trivial] at h
        obtain ⟨i2d, hi2d⟩ := poolGet_isSome p2 i2 hi2
        rw [hi2d] at h
        simp only [Option.some.injEq, Prod.mk.injEq] at h
        obtain ⟨rfl, rfl, rfl, rfl⟩ := h
        have hdisj : ∀ k, k ∈ keysOf p1 → k ∈ keysOf p2 → False := by
          intro k hk1 hk2
          have := hbound1 k hk1
          have := hbound2 k hk2
          omega
        have hkeys : keysOf (poolSet p1 f1
              ⟨i2d.transitions,
               if hasClassMark i2d.transitions then i2d.classPred else none,
               false⟩ ++ p2) = keysOf p1 ++ keysOf p2 := by
          rw [keysOf_append, keysOf_poolSet]
        refine ⟨by omega, ?_, ?_, ?_, ?_, ?_, ?_, ?_⟩
        · intro k hk
          rw [hkeys] at hk
          rcases List.mem_append.mp hk with hk1 | hk2
          · have := hbound1 k hk1; omega
          · have := hbound2 k hk2; omega
        · rw [hkeys]
          exact List.Nodup.append hnd1 hnd2
            (fun k hk1 hk2 => hdisj k hk1 hk2)
        · rw [hkeys]; exact List.mem_append.mpr (Or.inl hi1)
        · rw [hkeys]; exact List.mem_append.mpr (Or.inr hf2)
        · intro hif
          subst hif
          exact hdisj i1 hi1 hf2
        · rw [poolGet_append_right _ _ _
            (by rw [keysOf_poolSet]; exact fun hk => hdisj f2 hk hf2)]
          exact hgetf2
        · intro e he hne
          rcases List.mem_append.mp he with he1 | he2
          · refine poolSet_forall (fun e => e.2.accept = false) p1 f1 _ ?_ ?_ e he1
            · intro e0 he0 _; exact hall1 e0 he0
            · rfl
          · by_cases hef : e.1 = f2
            · exact absurd hef hne
            · exact hacc2 e he2 hef
  | dsjn t1 t2 ih1 ih2 =>
    intro c af i f pool c' h
    rw [compile_to_nfa] at h
    cases hsub1 : compile_to_nfa t1 (c + 1) false with
    | none => rw [hsub1] at h; exact absurd h (by simp)
    | some q1 =>
      obtain ⟨i1, f1, p1, c1⟩ := q1
      rw [hsub1] at h
      simp only [] at h
      cases hsub2 : compile_to_nfa t2 c1 false with
      | none => rw [hsub2] at h; exact absurd h (by simp)
      | some q2 =>
        obtain ⟨i2, f2, p2, c2⟩ := q2
        rw [hsub2] at h
        simp only [] at h
        obtain ⟨hc1, hbound1, hnd1, hi1, hf1, hif1, hgetf1, hacc1⟩ :=
          ih1 (c + 1) false i1 f1 p1 c1 hsub1
        obtain ⟨hc2, hbound2, hnd2, hi2, hf2, hif2, hgetf2, hacc2⟩ :=
          ih2 c1 false i2 f2 p2 c2 hsub2
        have hall1 := nfaInv_all_false
          ⟨hc1, hbound1, hnd1, hi1, hf1, hif1, hgetf1, hacc1⟩
        have hall2 := nfaInv_all_false
          ⟨hc2, hbound2, hnd2, hi2, hf2, hif2, hgetf2, hacc2⟩
        rw [hgetf1, hgetf2] at h
        simp only [] at h
        rw [if_pos (by simp)] at h
        simp only [Option.some.injEq, Prod.mk.injEq] at h
        obtain ⟨rfl, rfl, rfl, rfl⟩ := h
        have hdisj : ∀ k, k ∈ keysOf p1 → k ∈ keysOf p2 → False := by
          intro k hk1 hk2
          have := hbound1 k hk1
          have := hbound2 k hk2
          omega
        have hkeys : keysOf ((2 * c, (⟨[(.eps, [i1, i2])], none, false⟩ : StateData)) ::
            (2 * c + 1, (⟨[], none, af⟩ : StateData)) ::
            (poolSet p1 f1 ⟨[(.eps, [2 * c + 1])], none, false⟩ ++
             poolSet p2 f2 ⟨[(.eps, [2 * c + 1])], none, false⟩)) =
            2 * c :: (2 * c + 1) :: (keysOf p1 ++ keysOf p2) := by
          rw [keysOf_cons, keysOf_cons, keysOf_append, keysOf_poolSet, keysOf_poolSet]
        refine ⟨by omega, ?_, ?_, ?_, ?_, ?_, ?_, ?_⟩
        · intro k hk
          rw [hkeys] at hk
          rcases List.mem_cons.mp hk with rfl | hk2
          · omega
          · rcases List.mem_cons.mp hk2 with rfl | hk3
            · omega
            · rcases List.mem_append.mp hk3 with hk4 | hk4
              · have := hbound1 k hk4; omega
              · have := hbound2 k hk4; omega
        · rw [hkeys]
          refine List.nodup_cons.mpr ⟨?_, List.nodup_cons.mpr ⟨?_, ?_⟩⟩
          · intro hmem
            rcases List.mem_cons.mp hmem with he | hk3
            · omega
            · rcases List.mem_append.mp hk3 with hk4 | hk4
              · have := hbound1 _ hk4; omega
              · have := hbound2 _ hk4; omega
          · intro hk3
            rcases List.mem_append.mp hk3 with hk4 | hk4
            · have := hbound1 _ hk4; omega
            · have := hbound2 _ hk4; omega
          · exact List.Nodup.append hnd1 hnd2 (fun k hk1 hk2 => hdisj k hk1 hk2)
        · rw [hkeys]; exact List.mem_cons_self _ _
        · rw [hkeys]
          exact List.mem_cons.mpr (Or.inr (List.mem_cons_self _ _))
        · omega
        · rw [poolGet_cons, if_neg (by omega), poolGet_cons, if_pos rfl]
        · intro e he hne
          rcases List.mem_cons.mp he with rfl | he2
          · rfl
          · rcases List.mem_cons.mp he2 with rfl | he3
            · exact absurd rfl hne
            · rcases List.mem_append.mp he3 with he4 | he4
              · refine poolSet_forall (fun e => e.2.accept = false) p1 f1 _ ?_ ?_ e he4
                · intro e0 he0 _; exact hall1 e0 he0
                · rfl
              · refine poolSet_forall (fun e => e.2.accept = false) p2 f2 _ ?_ ?_ e he4
                · intro e0 he0 _; exact hall2 e0 he0
                · rfl
  | group idx t1 _ =>
    intro c af i f pool c' h
    rw [compile_to_nfa] at h
    exact absurd h (by simp)

/-! ### Totality of the DFA transition tables (claim C8) -/

/-- A DFA state's transitions table is total: its keys are exactly the
bytes `0x00..0xFF` in order, and every destination list is a singleton
whose element is one of the given state ids. -/
def TransTotal (ids : List Nat) (sd : StateData) : Prop :=
  sd.transitions.map Prod.fst = (List.range 256).map Trigger.chr ∧
  ∀ e ∈ sd.transitions, ∃ tgt, e.2 = [tgt] ∧ tgt ∈ ids

/-- A partially filled table: keys are the bytes `0x00..k-1` in order. -/
def TransPartial (ids : List Nat) (sd : StateData) (k : Nat) : Prop :=
  sd.transitions.map Prod.fst = (List.range k).map Trigger.chr ∧
  ∀ e ∈ sd.transitions, ∃ tgt, e.2 = [tgt] ∧ tgt ∈ ids

/-- Invariant of the subset construction state that does not mention
transition tables: the lookup association pairs the discovered subsets
with the pool ids (in order), ids are distinct and below the counter,
subsets are distinct, marked subsets are discovered, and the initial
DFA state id 1 is in the pool. -/
def BaseInv (st : DfaBuild) : Prop :=
  st.lookupL.map Prod.fst = st.dfaStates ∧
  st.lookupL.map Prod.snd = keysOf st.dpool ∧
  (keysOf st.dpool).Nodup ∧
  (∀ id ∈ keysOf st.dpool, id < st.ctr) ∧
  st.dfaStates.Nodup ∧
  (∀ ss ∈ st.marked, ss ∈ st.dfaStates) ∧
  1 ∈ keysOf st.dpool

/-- Between iterations of the outer loop: every marked subset's DFA
state has a total transition table, every unmarked one an empty one. -/
def EntriesInv (st : DfaBuild) : Prop :=
  ∀ e ∈ st.lookupL, ∃ sd, poolGet st.dpool e.2 = some sd ∧
    (e.1 ∈ st.marked → TransTotal (keysOf st.dpool) sd) ∧
    (e.1 ∉ st.marked → sd.transitions = [])

def Inv (st : DfaBuild) : Prop := BaseInv st ∧ EntriesInv st

/-- During the byte loop over subset `ss0`: its table holds the first
`k` bytes, other states are as in `EntriesInv`. -/
def EntriesInvAt (st : DfaBuild) (ss0 : Finset Nat) (k : Nat) : Prop :=
  ∀ e ∈ st.lookupL, ∃ sd, poolGet st.dpool e.2 = some sd ∧
    (e.1 = ss0 → TransPartial (keysOf st.dpool) sd k) ∧
    (e.1 ≠ ss0 → e.1 ∈ st.marked → TransTotal (keysOf st.dpool) sd) ∧
    (e.1 ∉ st.marked → sd.transitions = [])

def InvAt (st : DfaBuild) (ss0 : Finset Nat) (k : Nat) : Prop :=
  BaseInv st ∧ ss0 ∈ st.marked ∧ EntriesInvAt st ss0 k

lemma TransPartial_mono (ids ids2 : List Nat) (sd : StateData) (k : Nat)
    (hsub : ∀ x ∈ ids, x ∈ ids2) (h : TransPartial ids sd k) :
    TransPartial ids2 sd k := by
  obtain ⟨h1, h2⟩ := h
  refine ⟨h1, fun e he => ?_⟩
  obtain ⟨tgt, ht1, ht2⟩ := h2 e he
  exact ⟨tgt, ht1, hsub tgt ht2⟩

lemma TransTotal_mono (ids ids2 : List Nat) (sd : StateData)
    (hsub : ∀ x ∈ ids, x ∈ ids2) (h : TransTotal ids sd) :
    TransTotal ids2 sd := by
  obtain ⟨h1, h2⟩ := h
  refine ⟨h1, fun e he => ?_⟩
  obtain ⟨tgt, ht1, ht2⟩ := h2 e he
  exact ⟨tgt, ht1, hsub tgt ht2⟩

lemma TransPartial_zero (ids : List Nat) (sd : StateData)
    (h : sd.transitions = []) : TransPartial ids sd 0 := by
  refine ⟨by rw [h]; rfl, ?_⟩
  rw [h]
  intro e he
  cases he

lemma TransPartial_256_total (ids : List Nat) (sd : StateData)
    (h : TransPartial ids sd 256) : TransTotal ids sd := h

/-! Association lemmas for `dictGet` (Trigger keys) and `lookupGet`
(subset keys), mirroring the pool lemmas. -/

lemma dictGet_mem (d : List (Trigger × List Nat)) (k : Trigger) (v : List Nat)
    (h : dictGet k d = some v) : (k, v) ∈ d := by
  unfold dictGet at h
  rcases Option.map_eq_some'.mp h with ⟨e, hf, rfl⟩
  have h1 : e.1 = k := by
    have := List.find?_some hf
    exact eq_of_beq this
  have h2 := List.mem_of_find?_eq_some hf
  obtain ⟨e1, e2⟩ := e
  rwa [show e1 = k from h1] at h2

lemma dictGet_isSome (d : List (Trigger × List Nat)) (k : Trigger)
    (h : k ∈ d.map Prod.fst) : ∃ v, dictGet k d = some v := by
  induction d with
  | nil => cases h
  | cons a d ih =>
    obtain ⟨k0, v0⟩ := a
    by_cases hk : k0 == k
    · exact ⟨v0, by simp [dictGet, List.find?, hk]⟩
    · rw [List.map_cons, List.mem_cons] at h
      rcases h with rfl | h2
      · exact absurd (beq_self_eq_true _) hk
      · obtain ⟨v, hv⟩ := ih h2
        refine ⟨v, ?_⟩
        simp only [dictGet, List.find?] at hv ⊢
        rw [show ((k0, v0).1 == k) = false from by simpa using hk]
        exact hv

lemma lookupGet_mem (l : List (Finset Nat × Nat)) (ss : Finset Nat) (sid : Nat)
    (h : lookupGet l ss = some sid) : (ss, sid) ∈ l := by
  unfold lookupGet at h
  rcases Option.map_eq_some'.mp h with ⟨e, hf, rfl⟩
  have h1 : e.1 = ss := by
    have := List.find?_some hf
    exact eq_of_beq this
  have h2 := List.mem_of_find?_eq_some hf
  obtain ⟨e1, e2⟩ := e
  rwa [show e1 = ss from h1] at h2

lemma mem_unique_of_fst_nodup {α β : Type} {l : List (α × β)}
    (hnd : (l.map Prod.fst).Nodup) {e e' : α × β} (he : e ∈ l) (he' : e' ∈ l)
    (h : e.1 = e'.1) : e = e' := by
  induction l with
  | nil => cases he
  | cons a l ih =>
    rw [List.map_cons, List.nodup_cons] at hnd
    rcases List.mem_cons.mp he with rfl | he2
    · rcases List.mem_cons.mp he' with rfl | he2'
      · rfl
      · exact absurd (h ▸ List.mem_map.mpr ⟨e', he2', rfl⟩) hnd.1
    · rcases List.mem_cons.mp he' with rfl | he2'
      · exact absurd (h ▸ List.mem_map.mpr ⟨e, he2, rfl⟩) hnd.1
      · exact ih hnd.2 he2 he2'

lemma mem_unique_of_snd_nodup {α β : Type} {l : List (α × β)}
    (hnd : (l.map Prod.snd).Nodup) {e e' : α × β} (he : e ∈ l) (he' : e' ∈ l)
    (h : e.2 = e'.2) : e = e' := by
  induction l with
  | nil => cases he
  | cons a l ih =>
    rw [List.map_cons, List.nodup_cons] at hnd
    rcases List.mem_cons.mp he with rfl | he2
    · rcases List.mem_cons.mp he' with rfl | he2'
      · rfl
      · exact absurd (h ▸ List.mem_map.mpr ⟨e', he2', rfl⟩) hnd.1
    · rcases List.mem_cons.mp he' with rfl | he2'
      · exact absurd (h ▸ List.mem_map.mpr ⟨e, he2, rfl⟩) hnd.1
      · exact ih hnd.2 he2 he2'

lemma dictInsert_fresh (k : Trigger) (v : List Nat)
    (d : List (Trigger × List Nat)) (h : ∀ e ∈ d, ¬(e.1 = k)) :
    dictInsert k v d = d ++ [(k, v)] := by
  unfold dictInsert
  rw [if_neg]
  intro hany
  rw [List.any_eq_true] at hany
  obtain ⟨e, he, hek⟩ := hany
  exact h e he (eq_of_beq hek)

lemma chr_not_mem_range_map (k : Nat) :
    Trigger.chr k ∉ (List.range k).map Trigger.chr := by
  intro h
  rcases List.mem_map.mp h with ⟨j, hj, hchr⟩
  injection hchr with hjk
  rw [List.mem_range] at hj
  omega

lemma alloc_invAt (st : DfaBuild) (ss0 ns : Finset Nat) (fin k : Nat)
    (hinv : InvAt st ss0 k) (hns : ns ∉ st.dfaStates) :
    InvAt { st with
              dfaStates := st.dfaStates ++ [ns],
              lookupL := st.lookupL ++ [(ns, st.ctr)],
              dpool := st.dpool ++ [(st.ctr, ⟨[], none, decide (fin ∈ ns)⟩)],
              ctr := st.ctr + 1 } ss0 k := by
  obtain ⟨⟨hpair1, hpair2, hndk, hbound, hnds, hmks, hone⟩, hmk, hent⟩ := hinv
  have hctr_not : st.ctr ∉ keysOf st.dpool :=
    fun hc => absurd (hbound _ hc) (lt_irrefl _)
  have hkeysapp : keysOf (st.dpool ++ [(st.ctr, ⟨[], none, decide (fin ∈ ns)⟩)]) =
      keysOf st.dpool ++ [st.ctr] := keysOf_append _ _
  refine ⟨⟨?_, ?_, ?_, ?_, ?_, ?_, ?_⟩, hmk, ?_⟩
  · rw [List.map_append, hpair1]; rfl
  · rw [List.map_append, hpair2, hkeysapp]; rfl
  · rw [hkeysapp, List.nodup_append]
    exact ⟨hndk, List.nodup_singleton _,
      fun a ha hb => hctr_not ((List.mem_singleton.mp hb) ▸ ha)⟩
  · intro id hid
    rw [hkeysapp] at hid
    rcases List.mem_append.mp hid with h1 | h1
    · have := hbound _ h1
      simp only []
      omega
    · rw [List.mem_singleton.mp h1]
      simp only []
      omega
  · rw [List.nodup_append]
    exact ⟨hnds, List.nodup_singleton _,
      fun a ha hb => hns ((List.mem_singleton.mp hb) ▸ ha)⟩
  · intro x hx
    exact List.mem_append_left _ (hmks x hx)
  · rw [hkeysapp]
    exact List.mem_append_left _ hone
  · intro e he
    rcases List.mem_append.mp he with he1 | he2
    · obtain ⟨sde, hsde, hP1, hP2, hP3⟩ := hent e he1
      refine ⟨sde, poolGet_append_left _ _ _ _ hsde, ?_, ?_, hP3⟩
      · intro h1
        refine TransPartial_mono _ _ _ _ ?_ (hP1 h1)
        intro x hx
        rw [hkeysapp]
        exact List.mem_append_left _ hx
      · intro h1 h2
        refine TransTotal_mono _ _ _ ?_ (hP2 h1 h2)
        intro x hx
        rw [hkeysapp]
        exact List.mem_append_left _ hx
    · rw [List.mem_singleton] at he2
      subst he2
      refine ⟨⟨[], none, decide (fin ∈ ns)⟩, ?_, ?_, ?_, ?_⟩
      · rw [poolGet_append_right _ _ _ hctr_not, poolGet_cons, if_pos rfl]
      · intro h1
        refine absurd ?_ hns
        rw [show ns = ss0 from h1]
        exact hmks ss0 hmk
      · intro _ h2
        exact absurd (hmks ns h2) hns
      · intro _
        rfl

lemma install_invAt (st1 : DfaBuild) (ss0 : Finset Nat) (k : Nat)
    (sid tid : Nat) (sd : StateData)
    (hinv : InvAt st1 ss0 k)
    (hsid : lookupGet st1.lookupL ss0 = some sid)
    (htid : tid ∈ keysOf st1.dpool)
    (hsd : poolGet st1.dpool sid = some sd) :
    InvAt { st1 with
              dpool := poolSet st1.dpool sid
                { sd with transitions :=
                    dictInsert (Trigger.chr k) [tid] sd.transitions } }
      ss0 (k + 1) := by
  obtain ⟨⟨hpair1, hpair2, hndk, hbound, hnds, hmks, hone⟩, hmk, hent⟩ := hinv
  have hsndnd : (st1.lookupL.map Prod.snd).Nodup := by rw [hpair2]; exact hndk
  have hfstnd : (st1.lookupL.map Prod.fst).Nodup := by rw [hpair1]; exact hnds
  have hssmem : (ss0, sid) ∈ st1.lookupL := lookupGet_mem _ _ _ hsid
  obtain ⟨sd0, hsd0, hP, _, _⟩ := hent (ss0, sid) hssmem
  rw [hsd0] at hsd
  injection hsd with hsdeq
  subst hsdeq
  have hpart : TransPartial (keysOf st1.dpool) sd0 k := hP rfl
  have hfresh : ∀ e ∈ sd0.transitions, ¬(e.1 = Trigger.chr k) := by
    intro e he hek
    have hmm : e.1 ∈ sd0.transitions.map Prod.fst :=
      List.mem_map.mpr ⟨e, he, rfl⟩
    rw [hpart.1, hek] at hmm
    exact chr_not_mem_range_map k hmm
  have hins : dictInsert (Trigger.chr k) [tid] sd0.transitions =
      sd0.transitions ++ [(Trigger.chr k, [tid])] :=
    dictInsert_fresh _ _ _ hfresh
  have hkeq : keysOf (poolSet st1.dpool sid
      { sd0 with transitions := dictInsert (Trigger.chr k) [tid] sd0.transitions }) =
      keysOf st1.dpool := keysOf_poolSet _ _ _
  refine ⟨⟨hpair1, ?_, ?_, ?_, hnds, hmks, ?_⟩, hmk, ?_⟩
  · rw [hkeq]; exact hpair2
  · rw [hkeq]; exact hndk
  · intro id hid
    rw [hkeq] at hid
    exact hbound id hid
  · rw [hkeq]; exact hone
  · intro e he
    by_cases hesid : e.2 = sid
    · have heeq : e = (ss0, sid) :=
        mem_unique_of_snd_nodup hsndnd he hssmem (by rw [hesid])
      refine ⟨{ sd0 with
                  transitions := dictInsert (Trigger.chr k) [tid] sd0.transitions },
        ?_, ?_, ?_, ?_⟩
      · rw [show e.2 = sid from hesid]
        exact poolGet_poolSet_self _ _ _ _ hsd0
      · intro _
        constructor
        · show (dictInsert (Trigger.chr k) [tid] sd0.transitions).map Prod.fst =
            (List.range (k + 1)).map Trigger.chr
          rw [hins, List.map_append, hpart.1, List.range_succ, List.map_append]
          rfl
        · intro e2 he2
          rw [hins] at he2
          rcases List.mem_append.mp he2 with h2 | h2
          · obtain ⟨tgt, ht1, ht2⟩ := hpart.2 e2 h2
            refine ⟨tgt, ht1, ?_⟩
            rw [hkeq]
            exact ht2
          · rw [List.mem_singleton] at h2
            subst h2
            refine ⟨tid, rfl, ?_⟩
            rw [hkeq]
            exact htid
      · intro hne _
        exact absurd (congrArg Prod.fst heeq) hne
      · intro hnm
        exact absurd (heeq ▸ hmk : e.1 ∈ st1.marked) hnm
    · obtain ⟨sde, hsde, hP1, hP2, hP3⟩ := hent e he
      refine ⟨sde, ?_, ?_, ?_, hP3⟩
      · rw [poolGet_poolSet_ne _ _ _ _ hesid]
        exact hsde
      · intro hefst
        have heeq : e = (ss0, sid) :=
          mem_unique_of_fst_nodup hfstnd he hssmem (by rw [hefst])
        exact absurd (congrArg Prod.snd heeq) hesid
      · intro hne hm
        have := hP2 hne hm
        rw [hkeq]
        exact this

lemma processByte_inv (np : Pool) (fin : Nat) (ss0 : Finset Nat)
    (st st' : DfaBuild) (k : Nat)
    (h : processByte np fin ss0 st k = some st')
    (hinv : InvAt st ss0 k) :
    InvAt st' ss0 (k + 1) ∧
    (∀ x ∈ st.dfaStates, x ∈ st'.dfaStates) ∧ st'.marked = st.marked := by
  simp only [processByte] at h
  by_cases hmem : move np ss0 k ∈ st.dfaStates
  · rw [if_pos hmem] at h
    cases hs1 : lookupGet st.lookupL ss0 with
    | none => rw [hs1] at h; simp at h
    | some sid =>
      rw [hs1] at h
      cases hs2 : lookupGet st.lookupL (move np ss0 k) with
      | none => rw [hs2] at h; simp at h
      | some tid =>
        rw [hs2] at h
        simp only [] at h
        cases hsd : poolGet st.dpool sid with
        | none => rw [hsd] at h; simp at h
        | some sd =>
          rw [hsd] at h
          simp only [Option.some.injEq] at h
          subst h
          have htid : tid ∈ keysOf st.dpool := by
            rw [← hinv.1.2.1]
            exact List.mem_map.mpr ⟨_, lookupGet_mem _ _ _ hs2, rfl⟩
          exact ⟨install_invAt st ss0 k sid tid sd hinv hs1 htid hsd,
            fun x hx => hx, rfl⟩
  · rw [if_neg hmem] at h
    have hinv1 := alloc_invAt st ss0 (move np ss0 k) fin k hinv hmem
    set st1 : DfaBuild := { st with
      dfaStates := st.dfaStates ++ [move np ss0 k],
      lookupL := st.lookupL ++ [(move np ss0 k, st.ctr)],
      dpool := st.dpool ++ [(st.ctr, ⟨[], none, decide (fin ∈ move np ss0 k)⟩)],
      ctr := st.ctr + 1 } with hst1
    cases hs1 : lookupGet st1.lookupL ss0 with
    | none => rw [hs1] at h; simp at h
    | some sid =>
      rw [hs1] at h
      cases hs2 : lookupGet st1.lookupL (move np ss0 k) with
      | none => rw [hs2] at h; simp at h
      | some tid =>
        rw [hs2] at h
        simp only [] at h
        cases hsd : poolGet st1.dpool sid with
        | none => rw [hsd] at h; simp at h
        | some sd =>
          rw [hsd] at h
          simp only [Option.some.injEq] at h
          subst h
          have htid : tid ∈ keysOf st1.dpool := by
            rw [← hinv1.1.2.1]
            exact List.mem_map.mpr ⟨_, lookupGet_mem _ _ _ hs2, rfl⟩
          refine ⟨install_invAt st1 ss0 k sid tid sd hinv1 hs1 htid hsd,
            ?_, rfl⟩
          intro x hx
          exact List.mem_append_left _ hx

lemma optFold_range'_inv (np : Pool) (fin : Nat) (ss0 : Finset Nat) :
    ∀ (n k : Nat) (st st' : DfaBuild),
      optFold (processByte np fin ss0) st (List.range' k n) = some st' →
      InvAt st ss0 k →
      InvAt st' ss0 (k + n) ∧ (∀ x ∈ st.dfaStates, x ∈ st'.dfaStates) ∧
      st'.marked = st.marked := by
  intro n
  induction n with
  | zero =>
    intro k st st' h hinv
    simp only [List.range', optFold, Option.some.injEq] at h
    subst h
    exact ⟨hinv, fun x hx => hx, rfl⟩
  | succ n ih =>
    intro k st st' h hinv
    rw [List.range'_succ] at h
    simp only [optFold] at h
    cases hpb : processByte np fin ss0 st k with
    | none => rw [hpb] at h; simp at h
    | some st2 =>
      rw [hpb] at h
      simp only [] at h
      obtain ⟨hinv2, hmono2, hmark2⟩ := processByte_inv np fin ss0 st st2 k hpb hinv
      obtain ⟨hinv3, hmono3, hmark3⟩ := ih (k + 1) st2 st' h hinv2
      refine ⟨?_, fun x hx => hmono3 x (hmono2 x hx), by rw [hmark3, hmark2]⟩
      have hidx : k + 1 + n = k + (n + 1) := by omega
      rw [hidx] at hinv3
      exact hinv3

lemma processStateset_inv (np : Pool) (fin : Nat) (st st' : DfaBuild)
    (ss : Finset Nat) (h : processStateset np fin st ss = some st')
    (hinv : Inv st) (hss : ss ∈ st.dfaStates) :
    Inv st' ∧ (∀ x ∈ st.dfaStates, x ∈ st'.dfaStates) := by
  unfold processStateset at h
  by_cases hm : ss ∈ st.marked
  · rw [if_pos hm] at h
    injection h with h
    subst h
    exact ⟨hinv, fun x hx => hx⟩
  · rw [if_neg hm] at h
    have hinvm : InvAt { st with marked := st.marked ++ [ss] } ss 0 := by
      obtain ⟨⟨hpair1, hpair2, hndk, hbound, hnds, hmks, hone⟩, hent⟩ := hinv
      refine ⟨⟨hpair1, hpair2, hndk, hbound, hnds, ?_, hone⟩, ?_, ?_⟩
      · intro x hx
        rcases List.mem_append.mp hx with h1 | h1
        · exact hmks x h1
        · rw [List.mem_singleton.mp h1]
          exact hss
      · exact List.mem_append_right _ (List.mem_singleton_self _)
      · intro e he
        obtain ⟨sde, hsde, hP1, hP2⟩ := hent e he
        refine ⟨sde, hsde, ?_, ?_, ?_⟩
        · intro hefst
          exact TransPartial_zero _ _ (hP2 (hefst ▸ hm))
        · intro hne hmm
          rcases List.mem_append.mp hmm with h1 | h1
          · exact hP1 h1
          · exact absurd (List.mem_singleton.mp h1) hne
        · intro hnm
          refine hP2 ?_
          intro hmem2
          exact hnm (List.mem_append_left _ hmem2)
    rw [List.range_eq_range'] at h
    obtain ⟨hinvF, hmono, _⟩ :=
      optFold_range'_inv np fin ss 256 0 _ st' h hinvm
    rw [show (0 : Nat) + 256 = 256 by omega] at hinvF
    obtain ⟨hbaseF, hmkF, hentF⟩ := hinvF
    refine ⟨⟨hbaseF, ?_⟩, hmono⟩
    intro e he
    obtain ⟨sde, hsde, hP1, hP2, hP3⟩ := hentF e he
    refine ⟨sde, hsde, ?_, hP3⟩
    intro hmm
    by_cases hefst : e.1 = ss
    · exact TransPartial_256_total _ _ (hP1 hefst)
    · exact hP2 hefst hmm

lemma optFold_stateset_inv (np : Pool) (fin : Nat) :
    ∀ (l : List (Finset Nat)) (st st' : DfaBuild),
      optFold (processStateset np fin) st l = some st' →
      Inv st → (∀ x ∈ l, x ∈ st.dfaStates) →
      Inv st' ∧ (∀ x ∈ st.dfaStates, x ∈ st'.dfaStates) := by
  intro l
  induction l with
  | nil =>
    intro st st' h hinv _
    simp only [optFold, Option.some.injEq] at h
    subst h
    exact ⟨hinv, fun x hx => hx⟩
  | cons a l ih =>
    intro st st' h hinv hsub
    simp only [optFold] at h
    cases hps : processStateset np fin st a with
    | none => rw [hps] at h; simp at h
    | some st2 =>
      rw [hps] at h
      simp only [] at h
      obtain ⟨hinv2, hmono2⟩ := processStateset_inv np fin st st2 a hps hinv
        (hsub a (List.mem_cons_self _ _))
      obtain ⟨hinv3, hmono3⟩ := ih st2 st' h hinv2
        (fun x hx => hmono2 x (hsub x (List.mem_cons_of_mem _ hx)))
      exact ⟨hinv3, fun x hx => hmono3 x (hmono2 x hx)⟩

lemma dfaLoop_inv (np : Pool) (fin : Nat) :
    ∀ (fuel : Nat) (st st' : DfaBuild),
      dfaLoop np fin fuel st = some st' → Inv st →
      Inv st' ∧ ∀ ss ∈ st'.dfaStates, ss ∈ st'.marked := by
  intro fuel
  induction fuel with
  | zero =>
    intro st st' h hinv
    simp only [dfaLoop] at h
    by_cases hq : st.dfaStates.filter (fun ss => decide (ss ∉ st.marked)) = []
    · rw [if_pos hq] at h
      injection h with h
      subst h
      refine ⟨hinv, ?_⟩
      intro ss hss
      by_contra hm
      have hmem : ss ∈ st.dfaStates.filter (fun ss => decide (ss ∉ st.marked)) :=
        List.mem_filter.mpr ⟨hss, by simpa using hm⟩
      rw [hq] at hmem
      cases hmem
    · rw [if_neg hq] at h
      cases h
  | succ n ih =>
    intro st st' h hinv
    simp only [dfaLoop] at h
    by_cases hq : st.dfaStates.filter (fun ss => decide (ss ∉ st.marked)) = []
    · rw [if_pos hq] at h
      injection h with h
      subst h
      refine ⟨hinv, ?_⟩
      intro ss hss
      by_contra hm
      have hmem : ss ∈ st.dfaStates.filter (fun ss => decide (ss ∉ st.marked)) :=
        List.mem_filter.mpr ⟨hss, by simpa using hm⟩
      rw [hq] at hmem
      cases hmem
    · rw [if_neg hq] at h
      cases hof : optFold (processStateset np fin) st
          (st.dfaStates.filter (fun ss => decide (ss ∉ st.marked))) with
      | none => rw [hof] at h; simp at h
      | some st2 =>
        rw [hof] at h
        simp only [] at h
        obtain ⟨hinv2, _⟩ := optFold_stateset_inv np fin _ st st2 hof hinv
          (fun x hx => (List.mem_filter.mp hx).1)
        exact ih st2 st' h hinv2

lemma compile_to_dfa_inv (np : Pool) (ini fin fuel : Nat) (init : Nat)
    (ids : List Nat) (dpool : Pool)
    (h : compile_to_dfa np ini fin fuel = some (init, ids, dpool)) :
    init = 1 ∧ ids = keysOf dpool ∧ 1 ∈ keysOf dpool ∧
    (keysOf dpool).Nodup ∧
    ∀ e ∈ dpool, TransTotal (keysOf dpool) e.2 := by
  simp only [compile_to_dfa] at h
  cases hdl : dfaLoop np fin fuel
      ⟨[epsilon_closure np {ini}], [(epsilon_closure np {ini}, 1)],
       [(1, ⟨[], none, decide (fin ∈ epsilon_closure np {ini})⟩)], [], 2⟩ with
  | none => rw [hdl] at h; simp at h
  | some stF =>
    rw [hdl] at h
    simp only [Option.some.injEq, Prod.mk.injEq] at h
    obtain ⟨rfl, rfl, rfl⟩ := h
    have hinv0 : Inv ⟨[epsilon_closure np {ini}], [(epsilon_closure np {ini}, 1)],
        [(1, ⟨[], none, decide (fin ∈ epsilon_closure np {ini})⟩)], [], 2⟩ := by
      refine ⟨⟨rfl, rfl, ?_, ?_, ?_, ?_, ?_⟩, ?_⟩
      · simp [keysOf]
      · intro id hid
        simp only [keysOf, List.map_cons, List.map_nil, List.mem_singleton] at hid
        subst hid
        show (1 : Nat) < 2
        omega
      · simp
      · intro ss hss
        cases hss
      · simp [keysOf]
      · intro e he
        rw [List.mem_singleton] at he
        subst he
        refine ⟨⟨[], none, decide (fin ∈ epsilon_closure np {ini})⟩, ?_, ?_, ?_⟩
        · rw [poolGet_cons, if_pos rfl]
        · intro hmm
          cases hmm
        · intro _
          rfl
    obtain ⟨⟨hpair1, hpair2, hndk, _, _, _, hone⟩, hent⟩ :=
      (dfaLoop_inv np fin fuel _ stF hdl hinv0).1
    have hallm := (dfaLoop_inv np fin fuel _ stF hdl hinv0).2
    refine ⟨rfl, rfl, hone, hndk, ?_⟩
    intro e he
    obtain ⟨i0, sd⟩ := e
    have hi0 : i0 ∈ stF.lookupL.map Prod.snd := by
      rw [hpair2]
      exact List.mem_map.mpr ⟨(i0, sd), he, rfl⟩
    obtain ⟨el, hel, helq⟩ := List.mem_map.mp hi0
    obtain ⟨sd2, hsd2, hP1, _⟩ := hent el hel
    have hfst : el.1 ∈ stF.dfaStates := by
      rw [← hpair1]
      exact List.mem_map.mpr ⟨el, hel, rfl⟩
    have htot : TransTotal (keysOf stF.dpool) sd2 := hP1 (hallm el.1 hfst)
    have hget : poolGet stF.dpool i0 = some sd :=
      poolGet_eq_of_mem_nodup _ _ _ hndk he
    rw [helq] at hsd2
    rw [hget] at hsd2
    injection hsd2 with hsd2
    rw [hsd2]
    exact htot

lemma chr_mem_range_map (c : Nat) (hc : c < 256) :
    Trigger.chr c ∈ (List.range 256).map Trigger.chr :=
  List.mem_map.mpr ⟨c, List.mem_range.mpr hc, rfl⟩

lemma dfa_process_total (dpool : Pool)
    (hall : ∀ e ∈ dpool, TransTotal (keysOf dpool) e.2) :
    ∀ (inpt : List Nat) (cur : Nat), cur ∈ keysOf dpool →
      (∀ c ∈ inpt, c < 256) → (dfa_process dpool cur inpt).isSome := by
  intro inpt
  induction inpt with
  | nil =>
    intro cur hcur _
    obtain ⟨sd, hsd⟩ := poolGet_isSome dpool cur hcur
    simp [dfa_process, hsd]
  | cons c rest ih =>
    intro cur hcur hbytes
    obtain ⟨sd, hsd⟩ := poolGet_isSome dpool cur hcur
    have hmem : (cur, sd) ∈ dpool := poolGet_mem _ _ _ hsd
    obtain ⟨hkeys, hvals⟩ := hall (cur, sd) hmem
    have hchr : Trigger.chr c ∈ sd.transitions.map Prod.fst := by
      rw [hkeys]
      exact chr_mem_range_map c (hbytes c (List.mem_cons_self _ _))
    obtain ⟨l, hl⟩ := dictGet_isSome _ _ hchr
    obtain ⟨tgt, htgt, htgtmem⟩ := hvals _ (dictGet_mem _ _ _ hl)
    rw [dfa_process, hsd]
    simp only [hl]
    rw [show l = [tgt] from htgt]
    simp only [List.head?]
    exact ih tgt htgtmem (fun b hb => hbytes b (List.mem_cons_of_mem _ hb))

lemma group_of_lt_length (s : Nat) :
    ∀ (p : List (List Nat)) (i : Nat), group_of s p = some i → i < p.length := by
  intro p
  induction p with
  | nil => intro i h; cases h
  | cons g gs ih =>
    intro i h
    simp only [group_of] at h
    by_cases hs : s ∈ g
    · rw [if_pos hs] at h
      injection h with h
      subst h
      simp
    · rw [if_neg hs] at h
      cases hg : group_of s gs with
      | none => rw [hg] at h; cases h
      | some j =>
        rw [hg] at h
        injection h with h
        simp only [] at h
        have := ih j hg
        simp only [List.length_cons]
        omega

lemma optFold_repStep_length :
    ∀ (l : List (List Nat)) (acc res : List Nat),
      optFold repStep acc l = some res →
      res.length = acc.length + l.length := by
  intro l
  induction l with
  | nil =>
    intro acc res h
    simp only [optFold, Option.some.injEq] at h
    subst h
    simp
  | cons g gs ih =>
    intro acc res h
    simp only [optFold, repStep] at h
    cases hh : g.head? with
    | none => rw [hh] at h; simp at h
    | some r =>
      rw [hh] at h
      simp only [] at h
      have := ih (acc ++ [r]) res h
      simp only [List.length_append, List.length_cons, List.length_nil] at this ⊢
      omega

lemma optFold_miniTransStep (partF : List (List Nat)) :
    ∀ (trs acc res : List (Trigger × List Nat)),
      optFold (miniTransStep partF) acc trs = some res →
      res.map Prod.fst = acc.map Prod.fst ++ trs.map Prod.fst ∧
      ∀ e ∈ res, e ∈ acc ∨ ∃ gi, gi < partF.length ∧ e.2 = [gi + 1] := by
  intro trs
  induction trs with
  | nil =>
    intro acc res h
    simp only [optFold, Option.some.injEq] at h
    subst h
    exact ⟨by simp, fun e he => Or.inl he⟩
  | cons tr trs ih =>
    intro acc res h
    simp only [optFold, miniTransStep] at h
    cases hh : tr.2.head? with
    | none => rw [hh] at h; simp at h
    | some t =>
      rw [hh] at h
      simp only [] at h
      cases hg : group_of t partF with
      | none => rw [hg] at h; simp at h
      | some gi =>
        rw [hg] at h
        simp only [] at h
        obtain ⟨hkeys, hmem⟩ := ih (acc ++ [(tr.1, [gi + 1])]) res h
        constructor
        · rw [hkeys, List.map_append, List.append_assoc]
          rfl
        · intro e he
          rcases hmem e he with h1 | h1
          · rcases List.mem_append.mp h1 with h2 | h2
            · exact Or.inl h2
            · rw [List.mem_singleton] at h2
              subst h2
              exact Or.inr ⟨gi, group_of_lt_length t partF gi hg, rfl⟩
          · exact Or.inr h1

lemma buildMini_inv (dpool : Pool) (partF : List (List Nat)) (ids : List Nat)
    (hall : ∀ e ∈ dpool, TransTotal ids e.2) :
    ∀ (reps : List Nat) (idx : Nat) (mp : Pool),
      buildMini dpool partF reps idx = some mp →
      keysOf mp = List.range' (idx + 1) reps.length ∧
      ∀ e ∈ mp, e.2.transitions.map Prod.fst = (List.range 256).map Trigger.chr ∧
        ∀ e2 ∈ e.2.transitions, ∃ gi, gi < partF.length ∧ e2.2 = [gi + 1] := by
  intro reps
  induction reps with
  | nil =>
    intro idx mp h
    simp only [buildMini, Option.some.injEq] at h
    subst h
    exact ⟨rfl, fun e he => absurd he (List.not_mem_nil e)⟩
  | cons rep rest ih =>
    intro idx mp h
    simp only [buildMini] at h
    cases hg : poolGet dpool rep with
    | none => rw [hg] at h; simp at h
    | some sd =>
      rw [hg] at h
      simp only [] at h
      cases hof : optFold (miniTransStep partF) [] sd.transitions with
      | none => rw [hof] at h; simp at h
      | some mtrans =>
        rw [hof] at h
        simp only [] at h
        cases hbm : buildMini dpool partF rest (idx + 1) with
        | none => rw [hbm] at h; simp at h
        | some restPool =>
          rw [hbm] at h
          simp only [Option.some.injEq] at h
          subst h
          obtain ⟨hkeys0, hrest⟩ := ih (idx + 1) restPool hbm
          obtain ⟨hkeysm, hvalsm⟩ :=
            optFold_miniTransStep partF sd.transitions [] mtrans hof
          have hsdtot : TransTotal ids sd := hall (rep, sd) (poolGet_mem _ _ _ hg)
          constructor
          · rw [keysOf_cons, hkeys0, List.length_cons, List.range'_succ]
          · intro e he
            rcases List.mem_cons.mp he with rfl | he2
            · constructor
              · show mtrans.map Prod.fst = _
                rw [hkeysm, hsdtot.1]
                rfl
              · intro e2 he2
                rcases hvalsm e2 he2 with h1 | h1
                · cases h1
                · exact h1
            · exact hrest e he2

lemma countP_accept_eq_zero (l : Pool) (h : ∀ e ∈ l, e.2.accept = false) :
    l.countP (fun e => e.2.accept) = 0 := by
  induction l with
  | nil => rfl
  | cons a l ih =>
    rw [List.countP_cons, h a (List.mem_cons_self _ _)]
    simp only [if_neg Bool.false_ne_true, Nat.add_zero]
    exact ih (fun e he => h e (List.mem_cons_of_mem _ he))

lemma countP_accept_eq_one (l : Pool) (f : Nat) (sd : StateData)
    (hnd : (keysOf l).Nodup) (hmem : (f, sd) ∈ l) (hacc : sd.accept = true)
    (hoth : ∀ e ∈ l, e.1 ≠ f → e.2.accept = false) :
    l.countP (fun e => e.2.accept) = 1 := by
  induction l with
  | nil => cases hmem
  | cons a l ih =>
    obtain ⟨k, v⟩ := a
    rw [keysOf_cons, List.nodup_cons] at hnd
    rw [List.countP_cons]
    rcases List.mem_cons.mp hmem with he | he
    · injection he with h1 h2
      subst h1
      subst h2
      rw [countP_accept_eq_zero l ?_, if_pos hacc]
      intro e hel
      refine hoth e (List.mem_cons_of_mem _ hel) ?_
      intro hef
      exact hnd.1 (hef ▸ List.mem_map.mpr ⟨e, hel, rfl⟩)
    · have hkf : k ≠ f := by
        intro hkf2
        subst hkf2
        exact hnd.1 (List.mem_map.mpr ⟨(k, sd), he, rfl⟩)
      rw [hoth (k, v) (List.mem_cons_self _ _) hkf]
      rw [if_neg Bool.false_ne_true, Nat.add_zero]
      exact ih hnd.2 he (fun e hel hef => hoth e (List.mem_cons_of_mem _ hel) hef)

end regexp

/-- A sample parse tree (for the pattern `a(b|c)*`-shaped regular
expression without groups) used to instantiate the builder invariant. -/
def treeW : reparse.Tree :=
  .ccat (.ltrl 97) (.star (.dsjn (.ltrl 98) (.ltrl 99)))

/-- The NFA built from `treeW`. -/
def nfaW : Nat × Nat × regexp.Pool × Nat :=
  (regexp.compile_to_nfa treeW 1 true).getD (0, 0, [], 0)

/-- A one-state NFA (initial = final = accepting state 0, no
transitions) used to instantiate the subset-construction theorem. -/
def npoolW : regexp.Pool := [(0, ⟨[], none, true⟩)]

/-- The DFA built from `npoolW` by the subset construction. -/
def dfaW : Nat × List Nat × regexp.Pool :=
  (regexp.compile_to_dfa npoolW 0 0 5).getD (0, [], [])

/-- The DFA obtained by minimizing `dfaW`. -/
def miniW : Nat × regexp.Pool :=
  (regexp.minimize_dfa dfaW.1 dfaW.2.1 dfaW.2.2 10).getD (0, [])

/-- A transitions table looping every byte back to state 0. -/
def loopTrans : List (regexp.Trigger × List Nat) :=
  (List.range 256).map (fun b => (regexp.Trigger.chr b, [0]))

/-- The NFA compiled from the never-matching class pattern `[z-a]`. -/
def npoolZA : regexp.Pool :=
  [(2, ⟨[(regexp.Trigger.classMark, [3])],
        some (regexp.ClassPred.clsP ∅ [(122, 97)]), false⟩),
   (3, ⟨[], none, true⟩)]

/-- The DFA built from `npoolZA`; both its states are non-accepting. -/
def dfaZA : Nat × List Nat × regexp.Pool :=
  (regexp.compile_to_dfa npoolZA 2 3 5).getD (0, [], [])

/-- Claim C10: `epsilon_closure` is extensive and idempotent — for
every pool of NFA states and every set `S` of state ids, `S` is a
subset of `epsilon_closure S`, and applying `epsilon_closure` to
`epsilon_closure S` returns `epsilon_closure S` unchanged. -/
theorem C10_epsilon_closure_extensive_idempotent
    (p : regexp.Pool) (S : Finset Nat) :
    S ⊆ regexp.epsilon_closure p S ∧
    regexp.epsilon_closure p (regexp.epsilon_closure p S) =
      regexp.epsilon_closure p S := by
  constructor
  · exact regexp.epsilon_closure_supset p S
  · apply Finset.Subset.antisymm
    · exact regexp.epsilon_closure_min p _ _
        (regexp.epsilon_closure_closed p S) (subset_refl _)
    · exact regexp.epsilon_closure_supset p _

/-- Claim C7: for every tree accepted by `compile_to_nfa` (with the
default arguments: counter starting at 1 and `accept_final = true`),
exactly one state of the resulting NFA pool is marked accepting, that
state is the returned final state, and its transitions table is empty
(no outgoing transitions). -/
theorem C7_nfa_single_accept (t : reparse.Tree) (i f : Nat)
    (pool : regexp.Pool) (c' : Nat)
    (h : regexp.compile_to_nfa t 1 true = some (i, f, pool, c')) :
    pool.countP (fun e => e.2.accept) = 1 ∧
    regexp.poolGet pool f = some ⟨[], none, true⟩ ∧
    ∀ e ∈ pool, e.2.accept = true → e.1 = f := by
  obtain ⟨_, _, hnd, _, hf, _, hgetf, hacc⟩ :=
    regexp.compile_to_nfa_inv t 1 true i f pool c' h
  refine ⟨?_, hgetf, ?_⟩
  · exact regexp.countP_accept_eq_one pool f _ hnd
      (regexp.poolGet_mem _ _ _ hgetf) rfl hacc
  · intro e he hea
    by_contra hne
    rw [hacc e he hne] at hea
    cases hea

/-- Witness for C7 at a concrete tree. -/
theorem C7_nfa_single_accept_witness :
    nfaW.2.2.1.countP (fun e => e.2.accept) = 1 ∧
    regexp.poolGet nfaW.2.2.1 nfaW.2.1 = some ⟨[], none, true⟩ ∧
    ∀ e ∈ nfaW.2.2.1, e.2.accept = true → e.1 = nfaW.2.1 :=
  C7_nfa_single_accept treeW nfaW.1 nfaW.2.1 nfaW.2.2.1 nfaW.2.2.2 (by rfl)

/-- Claim C1: the parser accepts `a(b|c)*d` and produces a `GROUP`
node for the parenthesized subexpression, but `compile_to_nfa` has no
case for `GROUP` nodes and raises (`none`), so `match` on this
pattern raises instead of returning true — compilation does NOT
succeed on patterns containing parentheses. -/
theorem C1_group_node_crashes_compile :
    reparse.parse (sBytes "a(b|c)*d") =
      some (some (.ccat (.ltrl 97)
        (.ccat (.star (.group 1 (.dsjn (.ltrl 98) (.ltrl 99)))) (.ltrl 100)))) ∧
    regexp.compile_to_nfa
      (.ccat (.ltrl 97)
        (.ccat (.star (.group 1 (.dsjn (.ltrl 98) (.ltrl 99)))) (.ltrl 100)))
      1 true = none ∧
    regexp.matchRun (sBytes "a(b|c)*d") (sBytes "abcbcd") = none :=
  ⟨by rfl, by rfl, by rfl⟩

/-- Claim C2: `search` is by definition `match` on the rewritten
pattern, and stripping the `^` anchor works as specified, but the
rewritten pattern always wraps the body in parentheses, whose `GROUP`
node crashes `compile_to_nfa`; so `search("^foo", "foobar")` raises
(`none`) instead of returning true. -/
theorem C2_search_equals_match_but_crashes :
    (∀ p t, regexp.search p t = regexp.matchRun (regexp.rewriteSearch p) t) ∧
    regexp.rewriteSearch (sBytes "^foo") = sBytes "(foo)" ++ regexp.anchorBytes ∧
    regexp.search (sBytes "^foo") (sBytes "foobar") = none :=
  ⟨fun _ _ => rfl, by rfl, by rfl⟩

/-- Claim C3: the pattern `(a)` parses successfully (to a `GROUP`
node), yet `match` on it raises (`none`) rather than returning a
boolean: runtime matching does have an error channel beyond parse
failures. -/
theorem C3_match_raises_after_successful_parse :
    reparse.parse (sBytes "(a)") = some (some (.group 1 (.ltrl 97))) ∧
    regexp.matchRun (sBytes "(a)") (sBytes "a") = none :=
  ⟨by rfl, by rfl⟩

/-- Claim C4: the empty pattern parses to the null tree (`some none`),
but `compile_to_nfa` dereferences the null tree and raises, so
`match("", "")` raises (`none`) instead of returning true. -/
theorem C4_empty_pattern_crashes :
    reparse.parse [] = some none ∧
    regexp.matchRun [] [] = none ∧
    regexp.matchRun [] (sBytes "x") = none :=
  ⟨by rfl, by rfl, by rfl⟩

/-- Counterexample to claim C9: parsing `[z-a]`, whose class range has
lower bound byte 122 greater than upper bound byte 97, does NOT
produce a parse error: the parser returns a class tree carrying the
reversed range. -/
theorem C9_counterexample_reversed_range_parses :
    reparse.parse (sBytes "[z-a]") = some (some (.clss ∅ [(122, 97)])) := by
  rfl

/-- Claim C9 (amended): a character-class range with `lo > hi` is
accepted at parse time and silently yields a never-matching range: the
class predicate is false for every byte, so the class matches
nothing. -/
theorem C9_amended_reversed_range_never_matches :
    reparse.parse (sBytes "[z-a]") = some (some (.clss ∅ [(122, 97)])) ∧
    (∀ b : Nat, regexp.predEval (.clsP ∅ [(122, 97)]) b = false) ∧
    regexp.matchRun (sBytes "[z-a]") (sBytes "z") = some false := by
  refine ⟨by rfl, ?_, by rfl⟩
  intro b
  simp only [regexp.predEval, regexp.inClass, Finset.not_mem_empty,
    decide_False, List.any_cons, List.any_nil, Bool.or_false, Bool.false_or]
  rw [Bool.and_eq_false_iff]
  by_cases h : 122 ≤ b
  · right; simpa using by omega
  · left; simpa using h

/-- Claim C8: every DFA state produced by `compile_to_dfa` has exactly
256 defined transitions — one singleton successor per byte `0x00..0xFF`
— and so does every state of the DFA produced from it by
`minimize_dfa`; consequently `dfa_process` never performs a failing
lookup: it returns a boolean for every input byte string, on both the
constructed and the minimized DFA. -/
theorem C8_dfa_totality (np : regexp.Pool) (ini fin fuel init : Nat)
    (ids : List Nat) (dpool : regexp.Pool)
    (h : regexp.compile_to_dfa np ini fin fuel = some (init, ids, dpool)) :
    (∀ e ∈ dpool, regexp.TransTotal (regexp.keysOf dpool) e.2) ∧
    (∀ inpt : List Nat, (∀ c ∈ inpt, c < 256) →
      (regexp.dfa_process dpool init inpt).isSome) ∧
    (∀ (mfuel mi : Nat) (mpool : regexp.Pool),
      regexp.minimize_dfa init ids dpool mfuel = some (mi, mpool) →
      (∀ e ∈ mpool, regexp.TransTotal (regexp.keysOf mpool) e.2) ∧
      (∀ inpt : List Nat, (∀ c ∈ inpt, c < 256) →
        (regexp.dfa_process mpool mi inpt).isSome)) := by
  obtain ⟨hinit, hids, hone, hnd, htot⟩ :=
    regexp.compile_to_dfa_inv np ini fin fuel init ids dpool h
  refine ⟨htot, ?_, ?_⟩
  · intro inpt hb
    refine regexp.dfa_process_total dpool htot inpt init ?_ hb
    rw [hinit]
    exact hone
  · intro mfuel mi mpool hm
    simp only [regexp.minimize_dfa] at hm
    cases hrl : regexp.refineLoop dpool mfuel
        [ids.filter (fun s => regexp.stAccept dpool s),
         ids.filter (fun s => !regexp.stAccept dpool s)] with
    | none => rw [hrl] at hm; simp at hm
    | some partF =>
      rw [hrl] at hm
      simp only [] at hm
      cases hreps : regexp.optFold regexp.repStep [] partF with
      | none => rw [hreps] at hm; simp at hm
      | some reps =>
        rw [hreps] at hm
        simp only [] at hm
        cases hgi : regexp.group_of init partF with
        | none => rw [hgi] at hm; simp at hm
        | some iidx =>
          rw [hgi] at hm
          simp only [] at hm
          cases hbm : regexp.buildMini dpool partF reps 0 with
          | none => rw [hbm] at hm; simp at hm
          | some mpool2 =>
            rw [hbm] at hm
            simp only [Option.some.injEq, Prod.mk.injEq] at hm
            obtain ⟨rfl, rfl⟩ := hm
            obtain ⟨hkeysm, hentm⟩ :=
              regexp.buildMini_inv dpool partF _ htot reps 0 mpool2 hbm
            have hlenr : reps.length = partF.length := by
              have := regexp.optFold_repStep_length partF [] reps hreps
              simpa using this
            have hkeys2 : regexp.keysOf mpool2 = List.range' 1 partF.length := by
              rw [hkeysm, hlenr]
            have hmtot : ∀ e ∈ mpool2,
                regexp.TransTotal (regexp.keysOf mpool2) e.2 := by
              intro e he
              obtain ⟨hk, hv⟩ := hentm e he
              refine ⟨hk, ?_⟩
              intro e2 he2
              obtain ⟨gi, hgi2, hval⟩ := hv e2 he2
              refine ⟨gi + 1, hval, ?_⟩
              rw [hkeys2, List.mem_range'_1]
              omega
            refine ⟨hmtot, ?_⟩
            intro inpt hb
            refine regexp.dfa_process_total mpool2 hmtot inpt (iidx + 1) ?_ hb
            rw [hkeys2, List.mem_range'_1]
            have := regexp.group_of_lt_length init partF iidx hgi
            omega

/-- Witness for C8 at the concrete NFA `npoolW`: the constructed DFA's
states all have total transition tables, the scanner returns a result
on a sample input, and the minimized DFA's states are total as well. -/
theorem C8_dfa_totality_witness :
    (∀ e ∈ dfaW.2.2, regexp.TransTotal (regexp.keysOf dfaW.2.2) e.2) ∧
    (regexp.dfa_process dfaW.2.2 dfaW.1 [0, 97, 255]).isSome ∧
    (∀ e ∈ miniW.2, regexp.TransTotal (regexp.keysOf miniW.2) e.2) := by
  have h := C8_dfa_totality npoolW 0 0 5 dfaW.1 dfaW.2.1 dfaW.2.2 (by rfl)
  exact ⟨h.1, h.2.1 [0, 97, 255] (by decide),
    (h.2.2 10 miniW.1 miniW.2 (by rfl)).1⟩

/-- Claim C5 (code bug): on a DFA in which every state is accepting —
here a single accepting state with all 256 bytes looping to itself —
`minimize_dfa` does not return a one-state DFA: the initial partition
keeps the empty non-accepting block, and popping a representative from
that empty block raises a `KeyError` (`none`).  Likewise when no state
is accepting. -/
theorem C5_minimize_crashes_on_uniform_dfa :
    regexp.stAccept [(0, ⟨loopTrans, none, true⟩)] 0 = true ∧
    regexp.minimize_dfa 0 [0] [(0, ⟨loopTrans, none, true⟩)] 10 = none ∧
    regexp.stAccept [(0, ⟨loopTrans, none, false⟩)] 0 = false ∧
    regexp.minimize_dfa 0 [0] [(0, ⟨loopTrans, none, false⟩)] 10 = none :=
  ⟨by rfl, by rfl, by rfl, by rfl⟩

/-- Claim C6 (code bug): for the pattern `[z-a]` the un-minimized DFA
yields the verdict `false` on the empty string, but `minimize_dfa`
raises (`none`) — every state of this DFA is non-accepting, so the
accepting partition block is empty and popping its representative
fails — hence the minimized DFA produces no verdict at all. -/
theorem C6_minimized_verdict_missing :
    reparse.parse (sBytes "[z-a]") = some (some (.clss ∅ [(122, 97)])) ∧
    regexp.compile_to_nfa (.clss ∅ [(122, 97)]) 1 true =
      some (2, 3, npoolZA, 2) ∧
    regexp.compile_to_dfa npoolZA 2 3 5 =
      some (dfaZA.1, dfaZA.2.1, dfaZA.2.2) ∧
    regexp.dfa_process dfaZA.2.2 dfaZA.1 [] = some false ∧
    regexp.minimize_dfa dfaZA.1 dfaZA.2.1 dfaZA.2.2 10 = none :=
  ⟨by rfl, by rfl, by rfl, by rfl, by rfl⟩
